import Mathlib

/-!
Verification development for the core of the `confseq` betting-martingale
library (`betting.py`, `predmix.py`).

The betting-martingale machinery of `betting.py` is translated over the
exact rationals `ℚ`: every operation it performs on the data is a field
operation, a `min`/`max`, or a comparison, so the translation is exact
real (here: rational) arithmetic.  The value `+∞` that the Python code
stores into the capital process (`math.inf`) is modelled by `⊤` in
`WithTop ℚ`.  The bet generators of `predmix.py` involve `log` and
`sqrt` and are translated over `ℝ` further below.

Translation conventions, stated once:
* numpy arrays become `List`s; the entry at 0-based index `i` of an
  array derived from the observations corresponds to time `t = i + 1`;
* `np.cumsum(x)[i]` is `(x.take (i+1)).sum`, and `np.cumprod(f)[i]` is
  `∏ s ∈ Finset.range (i+1), f s`;
* bet-generating closures are taken as explicit function arguments
  (the Python `None` defaults are resolved by the caller);
* float division `a / 0` with `a > 0` yields `inf` in numpy; the only
  place the capital-process code lets this happen is the truncation
  bound `trunc_scale / mu_t`, and there it immediately replaces `inf`
  by the sentinel `1000`, so the translation uses
  `if mu = 0 then 1000 else trunc_scale / mu` (faithful for
  `trunc_scale > 0`, which is the documented range `(0, 1]`).
-/

namespace Confseq

variable {F : Type} [LinearOrderedField F]

/-- Effective null mean `mu_t` at 0-based index `i` (`betting.py`
lines 87-93 and the helper `mu_t` at lines 495-501): with a population
size `N` (sampling without replacement) it is
`(N*m - S_{t-1}) / (N - (t-1))` with `S_{t-1}` the sum of the first
`i = t-1` observations; without `N` it is the constant `m`. -/
def mu_t (x : List F) (m : F) (N : Option ℕ) (i : ℕ) : F :=
  match N with
  | none => m
  | some Nv => ((Nv : F) * m - ((x.take i).sum)) / ((Nv : F) - (i : F))

/-- Upper truncation bound for the positive bets (`betting.py` lines
99-113): `trunc_scale / mu_t` when `m_trunc`, with the `inf` produced at
`mu_t = 0` replaced by the sentinel `1000`; plain `trunc_scale`
otherwise. -/
def upper_trunc (trunc_scale mu : F) (m_trunc : Bool) : F :=
  if m_trunc then (if mu = 0 then 1000 else trunc_scale / mu) else trunc_scale

/-- Lower truncation bound (`betting.py` lines 99-113):
`trunc_scale / (1 - mu_t)` when `m_trunc`, with the `inf` produced at
`mu_t = 1` replaced by the sentinel `1000`; plain `trunc_scale`
otherwise. -/
def lower_trunc (trunc_scale mu : F) (m_trunc : Bool) : F :=
  if m_trunc then (if mu = 1 then 1000 else trunc_scale / (1 - mu)) else trunc_scale

/-- Truncated positive bet at index `s` (`betting.py` lines 116-117):
`min(upper_trunc, max(-lower_trunc, lambda))`. -/
def lambda_pos (x : List F) (m : F)
    (lambdas_fn_positive : List F → F → List F) (N : Option ℕ)
    (trunc_scale : F) (m_trunc : Bool) (s : ℕ) : F :=
  let mu := mu_t x m N s
  min (upper_trunc trunc_scale mu m_trunc)
    (max (-(lower_trunc trunc_scale mu m_trunc)) ((lambdas_fn_positive x m).getD s 0))

/-- Truncated negative bet at index `s` (`betting.py` lines 119-120):
`min(lower_trunc, max(-upper_trunc, lambda))`. -/
def lambda_neg (x : List F) (m : F)
    (lambdas_fn_negative : List F → F → List F) (N : Option ℕ)
    (trunc_scale : F) (m_trunc : Bool) (s : ℕ) : F :=
  let mu := mu_t x m N s
  min (lower_trunc trunc_scale mu m_trunc)
    (max (-(upper_trunc trunc_scale mu m_trunc)) ((lambdas_fn_negative x m).getD s 0))

/-- Positive capital process at index `i` (`betting.py` line 122):
`np.cumprod(1 + lambdas_positive * (x - mu_t))[i]`. -/
def capital_process_positive (x : List F) (m : F)
    (lambdas_fn_positive : List F → F → List F) (N : Option ℕ)
    (trunc_scale : F) (m_trunc : Bool) (i : ℕ) : F :=
  ∏ s ∈ Finset.range (i + 1),
    (1 + lambda_pos x m lambdas_fn_positive N trunc_scale m_trunc s *
      (x.getD s 0 - mu_t x m N s))

/-- Negative capital process at index `i` (`betting.py` line 123):
`np.cumprod(1 - lambdas_negative * (x - mu_t))[i]`. -/
def capital_process_negative (x : List F) (m : F)
    (lambdas_fn_negative : List F → F → List F) (N : Option ℕ)
    (trunc_scale : F) (m_trunc : Bool) (i : ℕ) : F :=
  ∏ s ∈ Finset.range (i + 1),
    (1 - lambda_neg x m lambdas_fn_negative N trunc_scale m_trunc s *
      (x.getD s 0 - mu_t x m N s))

/-- Combination of the two capital processes (`betting.py` lines
125-138): `theta * pcp` if `theta = 1`, `(1-theta) * ncp` if
`theta = 0`, else their convex combination or coordinatewise max
according to `convex_comb`. -/
def capital_combined (x : List F) (m : F)
    (lambdas_fn_positive lambdas_fn_negative : List F → F → List F)
    (N : Option ℕ) (convex_comb : Bool) (theta trunc_scale : F)
    (m_trunc : Bool) (i : ℕ) : F :=
  let pcp := capital_process_positive x m lambdas_fn_positive N trunc_scale m_trunc i
  let ncp := capital_process_negative x m lambdas_fn_negative N trunc_scale m_trunc i
  if theta = 1 then theta * pcp
  else if theta = 0 then (1 - theta) * ncp
  else if convex_comb then theta * pcp + (1 - theta) * ncp
  else max (theta * pcp) ((1 - theta) * ncp)

/-- Betting martingale (`betting.py` lines 13-151, function
`betting_mart`).  The returned array holds, at every index `i`, the
combined capital value, overwritten with `+∞` (modelled by `⊤`)
wherever `mu_t <= 0` or `mu_t >= 1` (lines 140-141).  The `alpha`
parameter of the Python function is used only to build the default bet
generator, which the caller resolves here, so it does not appear. -/
def betting_mart (x : List F) (m : F)
    (lambdas_fn_positive lambdas_fn_negative : List F → F → List F)
    (N : Option ℕ) (convex_comb : Bool) (theta trunc_scale : F)
    (m_trunc : Bool) : List (WithTop F) :=
  (List.range x.length).map (fun i =>
    if mu_t x m N i ≤ 0 ∨ 1 ≤ mu_t x m N i then (⊤ : WithTop F)
    else ((capital_combined x m lambdas_fn_positive lambdas_fn_negative N
      convex_comb theta trunc_scale m_trunc i : F) : WithTop F))

/-- Scalar multiplication of a weight by a capital value
(`betting.py` line 299, `lambdas_weights[k] * betting_mart(...)`); for
the positive weights the library uses, `c * inf = inf` in numpy, which
is what `⊤ ↦ ⊤` encodes. -/
def wmul (c : F) : WithTop F → WithTop F
  | ⊤ => ⊤
  | (q : F) => ((c * q : F) : WithTop F)

/-- Elementwise sum of two capital-value arrays (`betting.py` line 299,
`mart + ...`); `a + inf = inf` as in numpy. -/
def vecAdd (a b : List (WithTop F)) : List (WithTop F) :=
  List.zipWith (· + ·) a b

/-- Diversified betting martingale (`betting.py` lines 270-311,
function `diversified_betting_mart`): starting from the zero array it
accumulates `weight_k * betting_mart(..., k-th generator pair, ...)`
over the family.  The weight list defaults to the uniform `1/K`. -/
def diversified_betting_mart (x : List F) (m : F)
    (lambdas_fns_positive lambdas_fns_negative : List (List F → F → List F))
    (lambdas_weights : Option (List F)) (N : Option ℕ) (convex_comb : Bool)
    (theta trunc_scale : F) (m_trunc : Bool) : List (WithTop F) :=
  let K := lambdas_fns_positive.length
  let w := lambdas_weights.getD (List.replicate K ((1 : F) / (K : F)))
  (List.zip w (List.zip lambdas_fns_positive lambdas_fns_negative)).foldl
    (fun mart wfg =>
      vecAdd mart (List.map (wmul wfg.1)
        (betting_mart x m wfg.2.1 wfg.2.2 N convex_comb theta trunc_scale m_trunc)))
    (List.replicate x.length ((0 : F) : WithTop F))

/-- Logical confidence sequence for sampling without replacement
(`betting.py` lines 462-492, function `logical_cs`):
`l_t = S_t / N` and `u_t = 1 - (t - S_t) / N`. -/
def logical_cs (x : List F) (N : ℕ) : List F × List F :=
  ((List.range x.length).map (fun i => ((x.take (i + 1)).sum) / (N : F)),
   (List.range x.length).map (fun i =>
     1 - ((((i + 1 : ℕ) : F)) - (x.take (i + 1)).sum) / (N : F)))

/-! Confidence-sequence inversion (`betting.py` lines 314-397, function
`cs_from_martingale`).  The float value `np.nan`, which the function
stores when the confidence region at some time is empty, is modelled by
`none : Option F`; numpy's `np.maximum` / `np.minimum` propagate NaN,
which the operations `nmax` / `nmin` encode. -/

/-- NaN-propagating maximum, the translation of `np.maximum` on
possibly-NaN values. -/
def nmax : Option F → Option F → Option F
  | some a, some b => some (max a b)
  | _, _ => none

/-- NaN-propagating minimum, the translation of `np.minimum` on
possibly-NaN values. -/
def nmin : Option F → Option F → Option F
  | some a, some b => some (min a b)
  | _, _ => none

/-- Running accumulation used by `np.maximum.accumulate` /
`np.minimum.accumulate`: every output combines the previous output
with the next input. -/
def accumRun {α : Type} (f : α → α → α) : α → List α → List α
  | _, [] => []
  | acc, h :: t => f acc h :: accumRun f (f acc h) t

/-- Translation of `np.maximum.accumulate` (respectively
`np.minimum.accumulate`): the first output is the first input, later
outputs fold the inputs with `f`. -/
def accumulate {α : Type} (f : α → α → α) : List α → List α
  | [] => []
  | h :: t => h :: accumRun f h t

/-- Grid of candidate means (`betting.py` line 359):
`np.arange(0, 1 + 1/breaks, 1/breaks)` is the list of the `breaks + 1`
points `i / breaks`, `i = 0 .. breaks`. -/
def possible_m (breaks : ℕ) (i : ℕ) : F := (i : F) / (breaks : F)

/-- Indicator matrix entry (`betting.py` lines 367 and 371):
whether the martingale for grid point `i` is `≤ 1/alpha` at time
index `j`. -/
def confseq_mtx (x : List F) (mart_fn : List F → F → List (WithTop F))
    (breaks : ℕ) (alpha : F) (i j : ℕ) : Bool :=
  decide (((mart_fn x (possible_m breaks i)).getD j ⊤) ≤ ((1 / alpha : F) : WithTop F))

/-- Grid indices inside the confidence region at time index `j`
(`betting.py` line 377, `np.where(confseq_mtx[:, j])`). -/
def where_in_cs (x : List F) (mart_fn : List F → F → List (WithTop F))
    (breaks : ℕ) (alpha : F) (j : ℕ) : List ℕ :=
  (List.range (breaks + 1)).filter (fun i => confseq_mtx x mart_fn breaks alpha i j)

/-- Raw lower bound before widening (`betting.py` lines 378-383):
the first grid point in the region, or NaN when the region is empty. -/
def l_pre (x : List F) (mart_fn : List F → F → List (WithTop F))
    (breaks : ℕ) (alpha : F) (j : ℕ) : Option F :=
  (where_in_cs x mart_fn breaks alpha j).head?.map (possible_m breaks)

/-- Raw upper bound before widening (`betting.py` lines 378-383):
the last grid point in the region, or NaN when the region is empty. -/
def u_pre (x : List F) (mart_fn : List F → F → List (WithTop F))
    (breaks : ℕ) (alpha : F) (j : ℕ) : Option F :=
  (where_in_cs x mart_fn breaks alpha j).getLast?.map (possible_m breaks)

/-- Lower bounds after the one-grid-cell widening and clipping to
`[0, 1]` (`betting.py` line 384, `np.maximum(0, l - 1/breaks)`). -/
def l_widened (x : List F) (mart_fn : List F → F → List (WithTop F))
    (breaks : ℕ) (alpha : F) : List (Option F) :=
  (List.range x.length).map (fun j =>
    nmax (some 0) ((l_pre x mart_fn breaks alpha j).map (· - 1 / (breaks : F))))

/-- Upper bounds after widening and clipping (`betting.py` line 385). -/
def u_widened (x : List F) (mart_fn : List F → F → List (WithTop F))
    (breaks : ℕ) (alpha : F) : List (Option F) :=
  (List.range x.length).map (fun j =>
    nmin (some 1) ((u_pre x mart_fn breaks alpha j).map (· + 1 / (breaks : F))))

/-- Lower bounds after the optional intersection with the logical CS
(`betting.py` lines 387-391). -/
def l_intersected (x : List F) (mart_fn : List F → F → List (WithTop F))
    (breaks : ℕ) (alpha : F) (N : Option ℕ) : List (Option F) :=
  match N with
  | none => l_widened x mart_fn breaks alpha
  | some Nv => List.zipWith (fun a b => nmax a (some b))
      (l_widened x mart_fn breaks alpha) (logical_cs x Nv).1

/-- Upper bounds after the optional intersection with the logical CS
(`betting.py` lines 387-391). -/
def u_intersected (x : List F) (mart_fn : List F → F → List (WithTop F))
    (breaks : ℕ) (alpha : F) (N : Option ℕ) : List (Option F) :=
  match N with
  | none => u_widened x mart_fn breaks alpha
  | some Nv => List.zipWith (fun a b => nmin a (some b))
      (u_widened x mart_fn breaks alpha) (logical_cs x Nv).2

/-- Confidence sequence from a test martingale (`betting.py` lines
314-397): collect the raw grid bounds, widen them by one grid cell and
clip to `[0, 1]`, optionally intersect with the logical CS for a given
population size, and optionally take the running intersection. -/
def cs_from_martingale (x : List F) (mart_fn : List F → F → List (WithTop F))
    (breaks : ℕ) (alpha : F) (N : Option ℕ) (running_intersection : Bool) :
    List (Option F) × List (Option F) :=
  if running_intersection then
    (accumulate nmax (l_intersected x mart_fn breaks alpha N),
     accumulate nmin (u_intersected x mart_fn breaks alpha N))
  else (l_intersected x mart_fn breaks alpha N, u_intersected x mart_fn breaks alpha N)

/-! Predictable-mixture bets (`predmix.py` lines 5-69, function
`lambda_predmix_eb`).  These involve `log` and `sqrt` and are
translated over `ℝ`.  The Python default `truncation = math.inf` is
modelled by `⊤ : WithTop ℝ`.

On the NaN-replacement step `lambdas[np.isnan(lambdas)] = 0` (line 65):
in float arithmetic the radicand `2*log(1/alpha) / (t*log(1+t)*s2)` is
NaN exactly when it is `0/0`, and the square root is NaN also when the
radicand is negative (`alpha > 1`) or `-inf` (negative numerator over
zero).  Lean's conventions `a / 0 = 0` and `sqrt r = 0` for `r ≤ 0`
send all those cases to `0` — the same value the Python line
substitutes — so the step needs no separate translation.  The single
case where float and real-number semantics part ways is a positive
numerator over a zero denominator (`inf`, truncated to `truncation`);
it requires `sigma2 = 0`, which is impossible in the documented
parameter range `prior_variance > 0`, `fake_obs ≥ 1`. -/

/-- Minimum against a possibly-infinite truncation level
(`np.minimum(truncation, lambdas)` with `truncation = math.inf`
allowed). -/
def trunc_min (truncation : WithTop ℝ) (lam : ℝ) : ℝ :=
  match truncation with
  | ⊤ => lam
  | (t : ℝ) => min t lam

/-- Regularized running mean (`predmix.py` line 54):
`mu_hat_t[i] = (fake_obs*prior_mean + cumsum(x)[i]) / ((i+1) + fake_obs)`. -/
noncomputable def mu_hat_t (x : List ℝ) (prior_mean fake_obs : ℝ) (i : ℕ) : ℝ :=
  (fake_obs * prior_mean + (x.take (i + 1)).sum) / (((i + 1 : ℕ) : ℝ) + fake_obs)

/-- Regularized running variance (`predmix.py` lines 56-58):
`sigma2_t[i] = (fake_obs*prior_variance + cumsum((x - mu_hat_t)^2)[i]) / ((i+1) + fake_obs)`. -/
noncomputable def sigma2_t (x : List ℝ) (prior_mean prior_variance fake_obs : ℝ)
    (i : ℕ) : ℝ :=
  (fake_obs * prior_variance +
      ∑ r ∈ Finset.range (i + 1), (x.getD r 0 - mu_hat_t x prior_mean fake_obs r) ^ 2) /
    (((i + 1 : ℕ) : ℝ) + fake_obs)

/-- Shifted variance (`predmix.py` line 59):
`np.append(prior_variance, sigma2_t[0:n-1])[i]`. -/
noncomputable def sigma2_tminus1 (x : List ℝ) (prior_mean prior_variance fake_obs : ℝ) :
    ℕ → ℝ
  | 0 => prior_variance
  | i + 1 => sigma2_t x prior_mean prior_variance fake_obs i

/-- Predictable-mixture empirical-Bernstein bets (`predmix.py` lines
5-69, function `lambda_predmix_eb`). -/
noncomputable def lambda_predmix_eb (x : List ℝ) (truncation : WithTop ℝ) (alpha : ℝ)
    (fixed_n : Option ℕ) (prior_mean prior_variance fake_obs scale : ℝ) : List ℝ :=
  (List.range x.length).map (fun i =>
    let s2 := sigma2_tminus1 x prior_mean prior_variance fake_obs i
    let denom := (match fixed_n with
      | none => ((i + 1 : ℕ) : ℝ) * Real.log (1 + ((i + 1 : ℕ) : ℝ))
      | some nstar => (nstar : ℝ)) * s2
    trunc_min truncation (Real.sqrt (2 * Real.log (1 / alpha) / denom)) * scale)

/-! Specification-side restatement of the bets (spec §4.1), used to
check claim C4: the regularized mean `ŝ`, the regularized variance `v`
and the bet `λ_t` are defined here directly by the spec's displayed
formulas, by recursion on the 1-based time `t`, and are proved equal to
the code translation above. -/

/-- Spec §4.1 regularized running mean:
`ŝ_t = (k·μ₀ + Σ_{r≤t} x_r) / (t + k)`, with `ŝ_0 := μ₀`. -/
noncomputable def s_hat_spec (x : List ℝ) (mu0 k : ℝ) : ℕ → ℝ
  | 0 => mu0
  | t + 1 => (k * mu0 + ∑ r ∈ Finset.range (t + 1), x.getD r 0) / (((t + 1 : ℕ) : ℝ) + k)

/-- Spec §4.1 regularized running variance:
`v_t = (k·σ₀² + Σ_{r≤t} (x_r − ŝ_r)²) / (t + k)`, with `v_0 := σ₀²`. -/
noncomputable def v_spec (x : List ℝ) (mu0 sigma0sq k : ℝ) : ℕ → ℝ
  | 0 => sigma0sq
  | t + 1 => (k * sigma0sq +
      ∑ r ∈ Finset.range (t + 1), (x.getD r 0 - s_hat_spec x mu0 k (r + 1)) ^ 2) /
    (((t + 1 : ℕ) : ℝ) + k)

/-- Spec §4.1 bet at 1-based time `t`:
`λ_t = s · min(T, √(2·ln(1/α) / (t·ln(1+t)·v_{t−1})))`, with the
fixed-horizon variant replacing `t·ln(1+t)` by `n*`. -/
noncomputable def lambda_spec (x : List ℝ) (truncation : WithTop ℝ) (alpha : ℝ)
    (fixed_n : Option ℕ) (mu0 sigma0sq k scale : ℝ) (t : ℕ) : ℝ :=
  scale * trunc_min truncation (Real.sqrt (2 * Real.log (1 / alpha) /
    ((match fixed_n with
      | none => (t : ℝ) * Real.log (1 + (t : ℝ))
      | some nstar => (nstar : ℝ)) * v_spec x mu0 sigma0sq k (t - 1))))

/-! Hoeffding predictable-mixture confidence sequence (`predmix.py`
lines 127-184, function `predmix_hoeffding_cs`).  Unlike the other
translated functions, this one genuinely produces the float values
`inf` and `nan` on inputs inside its documented range (with bets
summing to zero the weighted mean is `0/0` and the margin is a positive
number over zero), and the code manipulates them further
(`weighted_mu_hat_t[np.isnan(...)] = 1/2`, `np.maximum(l, 0)`).  The
value space is therefore modelled by `Fl`: a real number, a signed
infinity, or NaN, with the IEEE-754 behaviour of the operations the
function applies. -/

/-- Float value: NaN, a signed infinity (`inf true` is `+inf`), or a
finite real. -/
inductive Fl where
  | nan : Fl
  | inf : Bool → Fl
  | fin : ℝ → Fl

namespace Fl

/-- IEEE negation. -/
def neg : Fl → Fl
  | nan => nan
  | inf b => inf !b
  | fin a => fin (-a)

/-- IEEE addition: NaN propagates, opposite infinities give NaN. -/
def add : Fl → Fl → Fl
  | nan, _ => nan
  | _, nan => nan
  | inf b, inf c => if b = c then inf b else nan
  | inf b, fin _ => inf b
  | fin _, inf c => inf c
  | fin a, fin b => fin (a + b)

/-- IEEE subtraction. -/
def sub (a b : Fl) : Fl := add a (neg b)

/-- IEEE division for the cases the library reaches (all zeros are
`+0`): `0/0` is NaN, a nonzero finite over zero is a signed infinity,
a finite over an infinity is `0`. -/
noncomputable def div : Fl → Fl → Fl
  | nan, _ => nan
  | _, nan => nan
  | inf _, inf _ => nan
  | inf b, fin c => if c < 0 then inf !b else inf b
  | fin _, inf _ => fin 0
  | fin a, fin c =>
      if c = 0 then (if a = 0 then nan else if 0 < a then inf true else inf false)
      else fin (a / c)

/-- Translation of `np.maximum` on floats: NaN propagates. -/
def fmax : Fl → Fl → Fl
  | nan, _ => nan
  | _, nan => nan
  | inf true, _ => inf true
  | _, inf true => inf true
  | inf false, y => y
  | x, inf false => x
  | fin a, fin b => fin (max a b)

/-- Translation of `np.minimum` on floats: NaN propagates. -/
def fmin : Fl → Fl → Fl
  | nan, _ => nan
  | _, nan => nan
  | inf false, _ => inf false
  | _, inf false => inf false
  | inf true, y => y
  | x, inf true => x
  | fin a, fin b => fin (min a b)

/-- Replacement of NaN by a constant, the translation of
`arr[np.isnan(arr)] = c`. -/
def nantoc (c : ℝ) : Fl → Fl
  | nan => fin c
  | v => v

end Fl

/-- Hoeffding predictable-mixture confidence sequence (`predmix.py`
lines 127-184, function `predmix_hoeffding_cs`).  `lambda_params =
none` selects the default bets `min(1, sqrt(8·log(2/α)/(t·log(t+1))))`
(lines 162-164). -/
noncomputable def predmix_hoeffding_cs (x : List ℝ) (lambda_params : Option (List ℝ))
    (alpha : ℝ) (running_intersection : Bool) : List Fl × List Fl :=
  let lp : List ℝ := match lambda_params with
    | some l => l
    | none => (List.range x.length).map (fun i =>
        min 1 (Real.sqrt (8 * Real.log (2 / alpha) /
          (((i + 1 : ℕ) : ℝ) * Real.log (((i + 1 : ℕ) : ℝ) + 1)))))
  let sumlam : ℕ → ℝ := fun i => (lp.take (i + 1)).sum
  let sumlamx : ℕ → ℝ := fun i => ((List.zipWith (· * ·) lp x).take (i + 1)).sum
  let psi : ℕ → ℝ := fun i => ((lp.map (· ^ 2)).take (i + 1)).sum / 8
  let margin : ℕ → Fl := fun i =>
    Fl.div (Fl.fin (psi i + Real.log (2 / alpha))) (Fl.fin (sumlam i))
  let wmu : ℕ → Fl := fun i =>
    Fl.nantoc (1 / 2) (Fl.div (Fl.fin (sumlamx i)) (Fl.fin (sumlam i)))
  let l := (List.range x.length).map (fun i =>
    Fl.fmax (Fl.sub (wmu i) (margin i)) (Fl.fin 0))
  let u := (List.range x.length).map (fun i =>
    Fl.fmin (Fl.add (wmu i) (margin i)) (Fl.fin 1))
  if running_intersection then (accumulate Fl.fmax l, accumulate Fl.fmin u)
  else (l, u)

/-- Default bet generator used by `betting_mart` when no generator is
passed (`betting.py` lines 81-82):
`lambda x, m: lambda_predmix_eb(x, alpha=alpha)`, with the
`lambda_predmix_eb` defaults `truncation = inf`, `fixed_n = None`,
`prior_mean = 1/2`, `prior_variance = 1/4`, `fake_obs = 1`,
`scale = 1`.  It depends on `alpha` and ignores `m`. -/
noncomputable def default_bets (alpha : ℝ) : List ℝ → ℝ → List ℝ :=
  fun x _ => lambda_predmix_eb x ⊤ alpha none (1/2) (1/4) 1 1

/-- Betting confidence sequence (`betting.py` lines 154-267, function
`betting_cs`) in the default-bets case `lambdas_fns_positive = None`:
the `None` is wrapped into the one-element family `[None]` (line 238)
and resolves inside `betting_mart` to the `alpha`-dependent default
predictable-mixture bets; the martingale handed to the grid inversion
is the diversified martingale of that one-element family.  The
`parallel` flag only changes the scheduling of the grid sweep, not the
value, and is not a parameter here. -/
noncomputable def betting_cs (x : List ℝ) (alpha : ℝ) (N : Option ℕ) (breaks : ℕ)
    (running_intersection convex_comb : Bool) (theta trunc_scale : ℝ)
    (m_trunc : Bool) : List (Option ℝ) × List (Option ℝ) :=
  cs_from_martingale x
    (fun x2 m => diversified_betting_mart x2 m [default_bets alpha]
      [default_bets alpha] none N convex_comb theta trunc_scale m_trunc)
    breaks alpha N running_intersection

/-! Basic lemmas about the translated operations. -/

theorem getD_map_range {α : Type} (f : ℕ → α) {n i : ℕ} (h : i < n) (d : α) :
    ((List.range n).map f).getD i d = f i := by
  simp [List.getD_eq_getElem?_getD, List.getElem?_map, List.getElem?_range h]

theorem sum_take_eq_sum_range {M : Type} [AddCommMonoid M] :
    ∀ (x : List M) (t : ℕ), (x.take t).sum = ∑ r ∈ Finset.range t, x.getD r 0
  | _, 0 => by simp
  | [], t + 1 => by simp
  | a :: xs, t + 1 => by
    rw [List.take_succ_cons, List.sum_cons, sum_take_eq_sum_range xs t,
      Finset.sum_range_succ' _ t]
    simp [add_comm]

theorem betting_mart_length (x : List F) (m : F)
    (fp fn : List F → F → List F) (N : Option ℕ) (cc : Bool) (theta tau : F)
    (mt : Bool) : (betting_mart x m fp fn N cc theta tau mt).length = x.length := by
  simp [betting_mart]

theorem logical_cs_length (x : List F) (N : ℕ) :
    (logical_cs x N).1.length = x.length ∧ (logical_cs x N).2.length = x.length := by
  constructor <;> simp [logical_cs]

theorem l_intersected_length (x : List F)
    (mart_fn : List F → F → List (WithTop F)) (breaks : ℕ) (alpha : F)
    (N : Option ℕ) :
    (l_intersected x mart_fn breaks alpha N).length = x.length := by
  cases N <;> simp [l_intersected, l_widened, logical_cs]

theorem u_intersected_length (x : List F)
    (mart_fn : List F → F → List (WithTop F)) (breaks : ℕ) (alpha : F)
    (N : Option ℕ) :
    (u_intersected x mart_fn breaks alpha N).length = x.length := by
  cases N <;> simp [u_intersected, u_widened, logical_cs]

/-- Claim C2 (counterexample).  The claim states that the returned
value is `+∞` at exactly the positions where the effective null mean
lies outside the closed interval `[0, 1]`, and that at `μ_t = 0` the
value is the truncated capital product, not `+∞`.  On `x = [1/2]`,
`m = 0` (so `μ_1 = 0 ∈ [0, 1]`) the code stores `+∞` (lines 140-141
use `mu_t <= 0`, not `mu_t < 0`), refuting the biconditional. -/
theorem claim_C2_counterexample :
    ¬ (((betting_mart [(1/2 : ℚ)] 0 (fun _ _ => [0]) (fun _ _ => [0]) none false
        (1/2) (1/2) true).getD 0 0 = ⊤) ↔
      (mu_t [(1/2 : ℚ)] 0 none 0 < 0 ∨ 1 < mu_t [(1/2 : ℚ)] 0 none 0)) := by
  have h1 : (betting_mart [(1/2 : ℚ)] 0 (fun _ _ => [0]) (fun _ _ => [0]) none false
      (1/2) (1/2) true).getD 0 0 = ⊤ := by
    norm_num [betting_mart, mu_t, List.range_succ]
  rw [h1]
  norm_num [mu_t]

/-- Claim C2 (amended).  For every stream in `[0,1]^n`, candidate mean
`m ∈ [0,1]` and optional population size `N ≥ n`, the array returned by
`betting_mart` equals `+∞` at exactly those positions where the
effective null mean satisfies `μ_t ≤ 0` or `μ_t ≥ 1`, i.e. lies outside
the open interval `(0, 1)`; in particular positions with `μ_t = 0` or
`μ_t = 1` also hold `+∞`. -/
theorem claim_C2 (x : List ℚ) (m : ℚ) (fp fn : List ℚ → ℚ → List ℚ)
    (N : Option ℕ) (cc : Bool) (theta tau : ℚ) (mt : Bool)
    (hx : ∀ a ∈ x, 0 ≤ a ∧ a ≤ 1) (hm0 : 0 ≤ m) (hm1 : m ≤ 1)
    (hN : ∀ Nv ∈ N, x.length ≤ Nv) {i : ℕ} (hi : i < x.length) :
    (betting_mart x m fp fn N cc theta tau mt).getD i 0 = ⊤ ↔
      (mu_t x m N i ≤ 0 ∨ 1 ≤ mu_t x m N i) := by
  unfold betting_mart
  rw [getD_map_range _ hi]
  by_cases h : mu_t x m N i ≤ 0 ∨ 1 ≤ mu_t x m N i
  · simp [h]
  · simp [h]

/-- Claim C2 (witness to the amended theorem): at `x = [1/2]`, `m = 0`
the returned entry is `+∞` and indeed `μ_1 = 0 ≤ 0`. -/
theorem claim_C2_witness :
    (betting_mart [(1/2 : ℚ)] 0 (fun _ _ => [0]) (fun _ _ => [0]) none false
        (1/2) (1/2) true).getD 0 0 = ⊤ ↔
      (mu_t [(1/2 : ℚ)] 0 none 0 ≤ 0 ∨ 1 ≤ mu_t [(1/2 : ℚ)] 0 none 0) :=
  claim_C2 [(1/2 : ℚ)] 0 (fun _ _ => [0]) (fun _ _ => [0]) none false (1/2) (1/2) true
    (by intro a ha; rw [List.mem_singleton] at ha; subst ha; constructor <;> norm_num)
    le_rfl (by norm_num) (by simp) (by simp)

/-! Lemmas for the reflection symmetry of `betting_mart` (claim C6). -/

theorem getD_map_one_sub (x : List ℚ) {s : ℕ} (h : s < x.length) :
    (x.map (fun a => 1 - a)).getD s 0 = 1 - x.getD s 0 := by
  simp [List.getD_eq_getElem?_getD, List.getElem?_map, List.getElem?_eq_getElem h]

theorem upper_trunc_one_sub (tau m : ℚ) (mt : Bool) :
    upper_trunc tau (1 - m) mt = lower_trunc tau m mt := by
  cases mt
  · rfl
  · show (if (1 : ℚ) - m = 0 then (1000 : ℚ) else tau / (1 - m))
      = if m = 1 then (1000 : ℚ) else tau / (1 - m)
    apply if_congr _ rfl rfl
    constructor
    · intro h; linarith
    · intro h; rw [h]; ring

theorem lower_trunc_one_sub (tau m : ℚ) (mt : Bool) :
    lower_trunc tau (1 - m) mt = upper_trunc tau m mt := by
  cases mt
  · rfl
  · show (if (1 : ℚ) - m = 1 then (1000 : ℚ) else tau / (1 - (1 - m)))
      = if m = 0 then (1000 : ℚ) else tau / m
    rw [sub_sub_cancel]
    apply if_congr _ rfl rfl
    constructor
    · intro h; linarith
    · intro h; rw [h]; ring

theorem lambda_pos_one_sub (x : List ℚ) (m : ℚ) (f : List ℚ → ℚ → List ℚ)
    (tau : ℚ) (mt : Bool) (hf : f (x.map (fun a => 1 - a)) (1 - m) = f x m) (s : ℕ) :
    lambda_pos (x.map (fun a => 1 - a)) (1 - m) f none tau mt s =
      lambda_neg x m f none tau mt s := by
  unfold lambda_pos lambda_neg
  simp only [mu_t, hf, upper_trunc_one_sub, lower_trunc_one_sub]

theorem lambda_neg_one_sub (x : List ℚ) (m : ℚ) (f : List ℚ → ℚ → List ℚ)
    (tau : ℚ) (mt : Bool) (hf : f (x.map (fun a => 1 - a)) (1 - m) = f x m) (s : ℕ) :
    lambda_neg (x.map (fun a => 1 - a)) (1 - m) f none tau mt s =
      lambda_pos x m f none tau mt s := by
  unfold lambda_pos lambda_neg
  simp only [mu_t, hf, upper_trunc_one_sub, lower_trunc_one_sub]

theorem capital_pos_one_sub (x : List ℚ) (m : ℚ) (f : List ℚ → ℚ → List ℚ)
    (tau : ℚ) (mt : Bool) (hf : f (x.map (fun a => 1 - a)) (1 - m) = f x m)
    {i : ℕ} (hi : i < x.length) :
    capital_process_positive (x.map (fun a => 1 - a)) (1 - m) f none tau mt i =
      capital_process_negative x m f none tau mt i := by
  unfold capital_process_positive capital_process_negative
  refine Finset.prod_congr rfl (fun s hs => ?_)
  have hsx : s < x.length := lt_of_lt_of_le (List.mem_range.mp hs) hi
  rw [lambda_pos_one_sub x m f tau mt hf s, getD_map_one_sub x hsx]
  simp only [mu_t]
  ring

theorem capital_neg_one_sub (x : List ℚ) (m : ℚ) (f : List ℚ → ℚ → List ℚ)
    (tau : ℚ) (mt : Bool) (hf : f (x.map (fun a => 1 - a)) (1 - m) = f x m)
    {i : ℕ} (hi : i < x.length) :
    capital_process_negative (x.map (fun a => 1 - a)) (1 - m) f none tau mt i =
      capital_process_positive x m f none tau mt i := by
  unfold capital_process_positive capital_process_negative
  refine Finset.prod_congr rfl (fun s hs => ?_)
  have hsx : s < x.length := lt_of_lt_of_le (List.mem_range.mp hs) hi
  rw [lambda_neg_one_sub x m f tau mt hf s, getD_map_one_sub x hsx]
  simp only [mu_t]
  ring

/-- Claim C6 (counterexample).  The claim asserts the reflection
symmetry for arbitrary identical positive and negative bet generators.
With the generator `f(x, m) = x` (bets equal to the observations), the
stream `x = [3/10]` and `m = 2/5`, the reflected call
(`x' = [7/10] = 1 - x`, `m' = 3/5 = 1 - m`) returns `107/200` while the
original returns `103/200`: the generator's bets on the reflected data
differ from its bets on the original data, so the capital values
disagree. -/
theorem claim_C6_counterexample :
    betting_mart [(7/10 : ℚ)] (3/5) (fun xs _ => xs) (fun xs _ => xs) none false (1/2) (1/2) true
      ≠ betting_mart [(3/10 : ℚ)] (2/5) (fun xs _ => xs) (fun xs _ => xs) none false (1/2) (1/2) true := by
  have h1 : betting_mart [(7/10 : ℚ)] (3/5) (fun xs _ => xs) (fun xs _ => xs) none false
      (1/2) (1/2) true = [((107/200 : ℚ) : WithTop ℚ)] := by
    norm_num [betting_mart, mu_t, capital_combined, capital_process_positive,
      capital_process_negative, lambda_pos, lambda_neg, upper_trunc, lower_trunc,
      List.range_succ, min_def, max_def]
  have h2 : betting_mart [(3/10 : ℚ)] (2/5) (fun xs _ => xs) (fun xs _ => xs) none false
      (1/2) (1/2) true = [((103/200 : ℚ) : WithTop ℚ)] := by
    norm_num [betting_mart, mu_t, capital_combined, capital_process_positive,
      capital_process_negative, lambda_pos, lambda_neg, upper_trunc, lower_trunc,
      List.range_succ, min_def, max_def]
  rw [h1, h2]
  simp only [ne_eq, List.cons.injEq, and_true]
  intro h
  rw [WithTop.coe_eq_coe] at h
  norm_num at h

/-- Claim C6 (amended).  The reflection symmetry holds once the single
bet generator used for both branches is itself reflection-invariant,
i.e. its bets on `(1-x, 1-m)` equal its bets on `(x, m)` (as is the
case for the default predictable-mixture bets, which depend on the data
only through the regularized variance with the symmetric prior mean
`1/2`): with `θ = 1/2`, `convex_comb` false and `N = None`,
`betting_mart` on the reflected inputs returns exactly the same capital
values as on the original inputs. -/
theorem claim_C6 (x : List ℚ) (m : ℚ) (f : List ℚ → ℚ → List ℚ) (tau : ℚ)
    (mt : Bool) (hf : f (x.map (fun a => 1 - a)) (1 - m) = f x m) :
    betting_mart (x.map (fun a => 1 - a)) (1 - m) f f none false (1/2) tau mt
      = betting_mart x m f f none false (1/2) tau mt := by
  unfold betting_mart
  rw [List.length_map]
  refine List.map_congr_left (fun i hmem => ?_)
  have hi : i < x.length := List.mem_range.mp hmem
  have hmu : mu_t (x.map (fun a => 1 - a)) (1 - m) none i = 1 - m := rfl
  have hmu' : mu_t x m none i = m := rfl
  rw [hmu, hmu']
  have hcond : (1 - m ≤ 0 ∨ 1 ≤ 1 - m) ↔ (m ≤ 0 ∨ 1 ≤ m) := by
    constructor
    · rintro (h | h)
      · right; linarith
      · left; linarith
    · rintro (h | h)
      · right; linarith
      · left; linarith
  refine if_congr hcond rfl ?_
  unfold capital_combined
  have h2 : ((1:ℚ)/2) ≠ 1 := by norm_num
  have h3 : ((1:ℚ)/2) ≠ 0 := by norm_num
  simp only [h2, h3, if_false, Bool.false_eq_true]
  rw [capital_pos_one_sub x m f tau mt hf hi, capital_neg_one_sub x m f tau mt hf hi]
  have hhalf : (1 : ℚ) - 1 / 2 = 1 / 2 := by norm_num
  rw [hhalf, max_comm]

/-- Claim C6 (witness to the amended theorem): a constant bet generator
is reflection-invariant, and the reflected and original capital values
coincide on `x = [1/4]`, `m = 1/3`. -/
theorem claim_C6_witness :
    betting_mart ([(1/4 : ℚ)].map (fun a => 1 - a)) (1 - 1/3)
        (fun _ _ => [1/5]) (fun _ _ => [1/5]) none false (1/2) (1/2) true
      = betting_mart [(1/4 : ℚ)] (1/3) (fun _ _ => [1/5]) (fun _ _ => [1/5]) none false
        (1/2) (1/2) true :=
  claim_C6 [(1/4 : ℚ)] (1/3) (fun _ _ => [1/5]) (1/2) true rfl

/-! Lemmas for the predictability of the bets (claim C7) and their
closed form (claim C4). -/

theorem take_agree_take {x y : List ℝ} {i : ℕ} (hpre : x.take i = y.take i)
    {t : ℕ} (ht : t ≤ i) : x.take t = y.take t := by
  have hx : x.take t = (x.take i).take t := by
    rw [List.take_take, Nat.min_eq_left ht]
  have hy : y.take t = (y.take i).take t := by
    rw [List.take_take, Nat.min_eq_left ht]
  rw [hx, hy, hpre]

theorem take_agree_getD {x y : List ℝ} {i : ℕ} (hpre : x.take i = y.take i)
    {r : ℕ} (hr : r < i) : x.getD r 0 = y.getD r 0 := by
  have hx : x.getD r 0 = (x.take i).getD r 0 := by
    simp [List.getD_eq_getElem?_getD, List.getElem?_take_of_lt hr]
  have hy : y.getD r 0 = (y.take i).getD r 0 := by
    simp [List.getD_eq_getElem?_getD, List.getElem?_take_of_lt hr]
  rw [hx, hy, hpre]

theorem mu_hat_t_congr {x y : List ℝ} (pm k : ℝ) {i : ℕ}
    (hpre : x.take i = y.take i) {r : ℕ} (hr : r < i) :
    mu_hat_t x pm k r = mu_hat_t y pm k r := by
  unfold mu_hat_t
  rw [take_agree_take hpre (Nat.succ_le_of_lt hr)]

theorem sigma2_t_congr {x y : List ℝ} (pm pv k : ℝ) {i : ℕ}
    (hpre : x.take i = y.take i) {j : ℕ} (hj : j < i) :
    sigma2_t x pm pv k j = sigma2_t y pm pv k j := by
  unfold sigma2_t
  congr 1
  congr 1
  refine Finset.sum_congr rfl (fun r hr => ?_)
  have hri : r < i := lt_of_le_of_lt (Nat.lt_succ_iff.mp (Finset.mem_range.mp hr)) hj
  rw [take_agree_getD hpre hri, mu_hat_t_congr pm k hpre hri]

theorem sigma2_tminus1_congr {x y : List ℝ} (pm pv k : ℝ) {i : ℕ}
    (hpre : x.take i = y.take i) :
    sigma2_tminus1 x pm pv k i = sigma2_tminus1 y pm pv k i := by
  cases i with
  | zero => rfl
  | succ j => exact sigma2_t_congr pm pv k hpre (Nat.lt_succ_self j)

/-- Claim C7.  The bets returned by `lambda_predmix_eb` are
predictable: for any two streams of equal length that agree on their
first `i` entries (all parameters equal), the bet at 0-based index `i`
— the `(i+1)`-st bet — is identical; in particular changing
`x_{i+1}, …, x_n` never changes it. -/
theorem claim_C7 (x y : List ℝ) (truncation : WithTop ℝ) (alpha : ℝ)
    (fixed_n : Option ℕ) (pm pv k s : ℝ) (i : ℕ) (hlen : x.length = y.length)
    (hi : i < x.length) (hpre : x.take i = y.take i) :
    (lambda_predmix_eb x truncation alpha fixed_n pm pv k s).getD i 0 =
      (lambda_predmix_eb y truncation alpha fixed_n pm pv k s).getD i 0 := by
  unfold lambda_predmix_eb
  rw [getD_map_range _ hi, getD_map_range _ (hlen ▸ hi)]
  rw [sigma2_tminus1_congr pm pv k hpre]

/-- Claim C7 (witness): on the streams `[0, 1/2]` and `[0, 1]`, which
agree on their first entry, the second bet is identical. -/
theorem claim_C7_witness :
    (lambda_predmix_eb [0, 1/2] ⊤ (1/20) none (1/2) (1/4) 1 1).getD 1 0 =
      (lambda_predmix_eb [0, 1] ⊤ (1/20) none (1/2) (1/4) 1 1).getD 1 0 :=
  claim_C7 [0, 1/2] [0, 1] ⊤ (1/20) none (1/2) (1/4) 1 1 1 rfl (by simp) rfl

theorem mu_hat_t_eq_s_hat_spec (x : List ℝ) (pm k : ℝ) (r : ℕ) :
    mu_hat_t x pm k r = s_hat_spec x pm k (r + 1) := by
  unfold mu_hat_t s_hat_spec
  rw [sum_take_eq_sum_range]

theorem sigma2_tminus1_eq_v_spec (x : List ℝ) (pm pv k : ℝ) :
    ∀ i : ℕ, sigma2_tminus1 x pm pv k i = v_spec x pm pv k i
  | 0 => rfl
  | j + 1 => by
    show sigma2_t x pm pv k j = v_spec x pm pv k (j + 1)
    unfold sigma2_t v_spec
    congr 1
    congr 1
    exact Finset.sum_congr rfl (fun r _ => by rw [mu_hat_t_eq_s_hat_spec])

/-- Claim C4.  For every stream and all parameters, the bet returned by
`lambda_predmix_eb` at 0-based index `i` equals the spec formula
`λ_t = s · min(T, √(2·ln(1/α) / (t·ln(1+t)·v_{t−1})))` at `t = i + 1`,
where `v` is the regularized running variance of spec §4.1 (and with
`t·ln(1+t)` replaced by `n*` when a fixed horizon is given).  The
NaN-replacement step of the code concerns only parameter settings
outside the documented ranges (see the module comment on
`lambda_predmix_eb`): under them the radicand is a positive real and no
NaN arises, so the formula above is the whole behaviour. -/
theorem claim_C4 (x : List ℝ) (truncation : WithTop ℝ) (alpha : ℝ)
    (fixed_n : Option ℕ) (mu0 sigma0sq k scale : ℝ) (i : ℕ) (hi : i < x.length) :
    (lambda_predmix_eb x truncation alpha fixed_n mu0 sigma0sq k scale).getD i 0 =
      lambda_spec x truncation alpha fixed_n mu0 sigma0sq k scale (i + 1) := by
  unfold lambda_predmix_eb lambda_spec
  rw [getD_map_range _ hi, sigma2_tminus1_eq_v_spec, Nat.add_sub_cancel, mul_comm]

/-- Claim C4 (witness): the first bet on the stream `[0, 1]` with the
default parameters equals the spec formula at `t = 1`. -/
theorem claim_C4_witness :
    (lambda_predmix_eb [0, 1] ⊤ (1/20) none (1/2) (1/4) 1 1).getD 0 0 =
      lambda_spec [0, 1] ⊤ (1/20) none (1/2) (1/4) 1 1 1 :=
  claim_C4 [0, 1] ⊤ (1/20) none (1/2) (1/4) 1 1 0 (by simp)

/-! Lemmas for the Hoeffding confidence sequence with zero bets
(claim C9). -/

theorem zipWith_zero_mul : ∀ (n : ℕ) (x : List ℝ),
    List.zipWith (· * ·) (List.replicate n 0) x = List.replicate (min n x.length) 0
  | 0, _ => by simp
  | _ + 1, [] => by simp
  | n + 1, a :: xs => by
    simp only [List.replicate_succ, List.zipWith_cons_cons, zipWith_zero_mul n xs,
      List.length_cons, zero_mul]
    rw [Nat.succ_min_succ, List.replicate_succ]

theorem accumRun_const {α : Type} (f : α → α → α) (c : α) (hf : f c c = c) :
    ∀ n : ℕ, accumRun f c (List.replicate n c) = List.replicate n c
  | 0 => rfl
  | n + 1 => by
    simp only [List.replicate_succ, accumRun, hf]
    rw [accumRun_const f c hf n]

theorem accumulate_const {α : Type} (f : α → α → α) (c : α) (hf : f c c = c)
    (n : ℕ) : accumulate f (List.replicate n c) = List.replicate n c := by
  cases n with
  | zero => rfl
  | succ n =>
    simp only [List.replicate_succ, accumulate]
    rw [accumRun_const f c hf n]

/-- Claim C9.  For every stream and `α ∈ (0,1)`, `predmix_hoeffding_cs`
called with `lambda_params` identically zero returns the trivial
confidence sequence: the weighted mean (a `0/0` form) is replaced by
`1/2`, the margin is `+∞`, and clipping to `[0,1]` yields exactly
`l_t = 0` and `u_t = 1` at every position (with or without the running
intersection). -/
theorem claim_C9 (x : List ℝ) (alpha : ℝ) (ri : Bool) (h0 : 0 < alpha)
    (h1 : alpha < 1) :
    predmix_hoeffding_cs x (some (List.replicate x.length 0)) alpha ri
      = (List.replicate x.length (Fl.fin 0), List.replicate x.length (Fl.fin 1)) := by
  have hlog : 0 < Real.log (2 / alpha) :=
    Real.log_pos ((one_lt_div h0).mpr (by linarith))
  have hc0 : Fl.fmax (Fl.fin 0) (Fl.fin 0) = Fl.fin 0 := by
    simp [Fl.fmax]
  have hc1 : Fl.fmin (Fl.fin 1) (Fl.fin 1) = Fl.fin 1 := by
    simp [Fl.fmin]
  cases ri <;>
    simp [predmix_hoeffding_cs, zipWith_zero_mul, List.take_replicate,
      Fl.div, Fl.nantoc, Fl.sub, Fl.neg, Fl.add, Fl.fmax, Fl.fmin,
      hlog.ne', hlog, accumulate_const Fl.fmax (Fl.fin 0) hc0,
      accumulate_const Fl.fmin (Fl.fin 1) hc1, List.map_const']

/-- Claim C9 (witness): on the two-element stream `[1/4, 3/4]` at
`α = 1/20`, with zero bets and the running intersection on, the
returned confidence sequence is `([0, 0], [1, 1])`. -/
theorem claim_C9_witness :
    predmix_hoeffding_cs [1/4, 3/4] (some (List.replicate (List.length [(1:ℝ)/4, 3/4]) 0))
        (1/20) true
      = (List.replicate (List.length [(1:ℝ)/4, 3/4]) (Fl.fin 0),
         List.replicate (List.length [(1:ℝ)/4, 3/4]) (Fl.fin 1)) :=
  claim_C9 [1/4, 3/4] (1/20) true (by norm_num) (by norm_num)

/-! Lemmas for the diversified martingale with identical families
(claim C8). -/

theorem vecAdd_zero : ∀ (l : List (WithTop F)),
    vecAdd (List.replicate l.length ((0 : F) : WithTop F)) l = l
  | [] => rfl
  | v :: t => by
    simp only [List.length_cons, List.replicate_succ, vecAdd, List.zipWith_cons_cons]
    rw [show ((0 : F) : WithTop F) + v = v by rw [WithTop.coe_zero, zero_add]]
    exact congrArg _ (vecAdd_zero t)

theorem wmul_add (c d : F) (v : WithTop F) :
    wmul c v + wmul d v = wmul (c + d) v := by
  cases v with
  | top => rfl
  | coe q =>
    show (((c * q : F) : WithTop F) + ((d * q : F) : WithTop F)) = ((c + d) * q : F)
    rw [← WithTop.coe_add]
    norm_num [add_mul]

theorem wmul_one (v : WithTop F) : wmul 1 v = v := by
  cases v with
  | top => rfl
  | coe q => show (((1 : F) * q : F) : WithTop F) = (q : WithTop F); rw [one_mul]

theorem foldl_replicate_const {α β : Type} (f : β → α → β) (e : α) :
    ∀ (j : ℕ) (b : β),
      List.foldl f b (List.replicate j e) = (fun b => f b e)^[j] b
  | 0, b => rfl
  | j + 1, b => by
    rw [List.replicate_succ, List.foldl_cons, foldl_replicate_const f e j,
      Function.iterate_succ_apply]

theorem iterate_vecAdd (M : List (WithTop F)) (c : F) :
    ∀ j : ℕ, 1 ≤ j →
      (fun mart => vecAdd mart (List.map (wmul c) M))^[j]
          (List.replicate M.length ((0 : F) : WithTop F))
        = List.map (wmul ((j : F) * c)) M := by
  intro j
  induction j with
  | zero => intro h; cases h
  | succ j ih =>
    intro _
    cases Nat.eq_zero_or_pos j with
    | inl hj0 =>
      subst hj0
      rw [Function.iterate_one]
      have hlen : (List.map (wmul c) M).length = M.length := List.length_map M _
      rw [← hlen, vecAdd_zero]
      refine List.map_congr_left (fun v _ => ?_)
      norm_num
    | inr hj1 =>
      rw [Function.iterate_succ_apply', ih hj1]
      unfold vecAdd
      rw [List.zipWith_map (· + ·) (wmul ((j : F) * c)) (wmul c) M M,
        List.zipWith_same]
      refine List.map_congr_left (fun v _ => ?_)
      rw [wmul_add]
      congr 1
      push_cast
      ring

/-- Helper: the diversified martingale over `K ≥ 1` copies of one
generator pair with uniform weights collapses to the single
`betting_mart`. -/
theorem diversified_replicate_eq (x : List F) (m : F) (f g : List F → F → List F)
    (K : ℕ) (hK : 1 ≤ K) (N : Option ℕ) (cc : Bool) (theta tau : F) (mt : Bool) :
    diversified_betting_mart x m (List.replicate K f) (List.replicate K g) none N
        cc theta tau mt
      = betting_mart x m f g N cc theta tau mt := by
  unfold diversified_betting_mart
  simp only [List.length_replicate, Option.getD_none, List.zip_replicate, min_self]
  rw [← betting_mart_length x m f g N cc theta tau mt]
  rw [foldl_replicate_const _ ((1 : F) / (K : F), (f, g)) K]
  rw [iterate_vecAdd (betting_mart x m f g N cc theta tau mt) ((1 : F) / (K : F)) K hK]
  have hcast : ((K : F)) * ((1 : F) / (K : F)) = 1 := by
    have hKne : (K : F) ≠ 0 :=
      Nat.cast_ne_zero.mpr (Nat.one_le_iff_ne_zero.mp hK)
    field_simp
  rw [hcast]
  rw [show (List.map (wmul 1) (betting_mart x m f g N cc theta tau mt))
      = betting_mart x m f g N cc theta tau mt from
    by rw [List.map_congr_left (fun v _ => wmul_one v), List.map_id']]

/-- Claim C8.  For every stream, candidate mean and parameter setting,
`diversified_betting_mart` called with `K ≥ 1` copies of one identical
bet-generator pair and the default uniform weights `1/K` returns
exactly the same array as a single `betting_mart` call with that pair:
in exact arithmetic `Σ_{k=1..K} (1/K)·M = M`, including at positions
holding `+∞`. -/
theorem claim_C8 (x : List ℚ) (m : ℚ) (f g : List ℚ → ℚ → List ℚ) (K : ℕ)
    (hK : 1 ≤ K) (N : Option ℕ) (cc : Bool) (theta tau : ℚ) (mt : Bool) :
    diversified_betting_mart x m (List.replicate K f) (List.replicate K g) none N
        cc theta tau mt
      = betting_mart x m f g N cc theta tau mt :=
  diversified_replicate_eq x m f g K hK N cc theta tau mt

/-- Claim C8 (witness): two identical copies with uniform weights
`1/2` give the single-family martingale on `x = [1/2]`, `m = 1/3`. -/
theorem claim_C8_witness :
    diversified_betting_mart [(1/2 : ℚ)] (1/3) (List.replicate 2 (fun _ _ => [1/4]))
        (List.replicate 2 (fun _ _ => [1/4])) none none false (1/2) (1/2) true
      = betting_mart [(1/2 : ℚ)] (1/3) (fun _ _ => [1/4]) (fun _ _ => [1/4]) none false
          (1/2) (1/2) true :=
  claim_C8 [(1/2 : ℚ)] (1/3) (fun _ _ => [1/4]) (fun _ _ => [1/4]) 2 (by norm_num) none
    false (1/2) (1/2) true

/-! Lemmas for NaN propagation in `cs_from_martingale` (claim C10). -/

theorem getD_zipWith {α β γ : Type} (f : α → β → γ) :
    ∀ (a : List α) (b : List β) (j : ℕ), j < a.length → j < b.length →
      ∀ (d : γ) (da : α) (db : β),
        (List.zipWith f a b).getD j d = f (a.getD j da) (b.getD j db)
  | [], _, j, h, _, _, _, _ => absurd h (Nat.not_lt_zero j)
  | _ :: _, [], j, _, h, _, _, _ => absurd h (Nat.not_lt_zero j)
  | a :: as, b :: bs, 0, _, _, d, da, db => rfl
  | a :: as, b :: bs, j + 1, h1, h2, d, da, db => by
    simp only [List.zipWith_cons_cons, List.getD_cons_succ]
    exact getD_zipWith f as bs j (Nat.lt_of_succ_lt_succ h1)
      (Nat.lt_of_succ_lt_succ h2) d da db

theorem accumRun_none_getD (f : Option ℚ → Option ℚ → Option ℚ)
    (hf1 : ∀ v, f none v = none) :
    ∀ (l : List (Option ℚ)) (s : ℕ), s < l.length →
      (accumRun f none l).getD s (some 0) = none
  | [], s, h => absurd h (Nat.not_lt_zero s)
  | h :: t, 0, _ => by simp [accumRun, hf1]
  | h :: t, s + 1, hlt => by
    simp only [accumRun, hf1, List.getD_cons_succ]
    exact accumRun_none_getD f hf1 t s (Nat.lt_of_succ_lt_succ (by simpa using hlt))

theorem accumRun_propagate (f : Option ℚ → Option ℚ → Option ℚ)
    (hf1 : ∀ v, f none v = none) (hf2 : ∀ v, f v none = none) :
    ∀ (l : List (Option ℚ)) (acc : Option ℚ) (j s : ℕ), j ≤ s → s < l.length →
      l.getD j (some 0) = none → (accumRun f acc l).getD s (some 0) = none
  | [], _, _, s, _, hs, _ => absurd hs (Nat.not_lt_zero s)
  | h :: t, acc, 0, s, _, hs, hj => by
    have hh : h = none := hj
    subst hh
    cases s with
    | zero => simp [accumRun, hf2]
    | succ s =>
      simp only [accumRun, hf2, List.getD_cons_succ]
      exact accumRun_none_getD f hf1 t s (Nat.lt_of_succ_lt_succ (by simpa using hs))
  | h :: t, acc, j + 1, s, hjs, hs, hj => by
    match s, hjs with
    | s + 1, hjs =>
      simp only [accumRun, List.getD_cons_succ]
      exact accumRun_propagate f hf1 hf2 t (f acc h) j s (Nat.le_of_succ_le_succ hjs)
        (Nat.lt_of_succ_lt_succ (by simpa using hs)) hj

theorem accumulate_propagate (f : Option ℚ → Option ℚ → Option ℚ)
    (hf1 : ∀ v, f none v = none) (hf2 : ∀ v, f v none = none) :
    ∀ (l : List (Option ℚ)) (j s : ℕ), j ≤ s → s < l.length →
      l.getD j (some 0) = none → (accumulate f l).getD s (some 0) = none
  | [], _, s, _, hs, _ => absurd hs (Nat.not_lt_zero s)
  | h :: t, 0, s, _, hs, hj => by
    have hh : h = none := hj
    subst hh
    cases s with
    | zero => rfl
    | succ s =>
      simp only [accumulate, List.getD_cons_succ]
      exact accumRun_none_getD f hf1 t s (Nat.lt_of_succ_lt_succ (by simpa using hs))
  | h :: t, j + 1, s, hjs, hs, hj => by
    match s, hjs with
    | s + 1, hjs =>
      simp only [accumulate, List.getD_cons_succ]
      exact accumRun_propagate f hf1 hf2 t h j s (Nat.le_of_succ_le_succ hjs)
        (Nat.lt_of_succ_lt_succ (by simpa using hs)) hj

theorem nmax_none_left : ∀ v : Option F, nmax none v = none := fun v => by cases v <;> rfl

theorem nmax_none_right : ∀ v : Option F, nmax v none = none := fun v => by cases v <;> rfl

theorem nmin_none_left : ∀ v : Option F, nmin none v = none := fun v => by cases v <;> rfl

theorem nmin_none_right : ∀ v : Option F, nmin v none = none := fun v => by cases v <;> rfl

/-- Claim C10.  In `cs_from_martingale` with the running intersection
enabled, if at time index `j` no grid point satisfies `M ≤ 1/α` (the
confidence region is empty, so the raw bounds are NaN), then both
returned bounds are NaN at every index `s ≥ j`: the NaN survives the
one-cell widening, the intersection with the logical CS, and the
running max/min accumulation — even if the grid region is non-empty
again at later times. -/
theorem claim_C10 (x : List ℚ) (mart_fn : List ℚ → ℚ → List (WithTop ℚ))
    (breaks : ℕ) (alpha : ℚ) (N : Option ℕ) (j s : ℕ)
    (hempty : ∀ i, i ≤ breaks → confseq_mtx x mart_fn breaks alpha i j = false)
    (hjs : j ≤ s) (hs : s < x.length) :
    (cs_from_martingale x mart_fn breaks alpha N true).1.getD s (some 0) = none ∧
      (cs_from_martingale x mart_fn breaks alpha N true).2.getD s (some 0) = none := by
  have hj : j < x.length := lt_of_le_of_lt hjs hs
  have hwhere : where_in_cs x mart_fn breaks alpha j = [] := by
    rw [where_in_cs, List.filter_eq_nil_iff]
    intro i hi
    rw [hempty i (Nat.lt_succ_iff.mp (List.mem_range.mp hi))]
    exact Bool.false_ne_true
  have hlpre : l_pre x mart_fn breaks alpha j = none := by
    rw [l_pre, hwhere]; rfl
  have hupre : u_pre x mart_fn breaks alpha j = none := by
    rw [u_pre, hwhere]; rfl
  have hL0 : (l_widened x mart_fn breaks alpha).getD j (some 0) = none := by
    rw [l_widened, getD_map_range _ hj, hlpre]; rfl
  have hU0 : (u_widened x mart_fn breaks alpha).getD j (some 0) = none := by
    rw [u_widened, getD_map_range _ hj, hupre]; rfl
  have hLw : (l_widened x mart_fn breaks alpha).length = x.length := by
    simp [l_widened]
  have hUw : (u_widened x mart_fn breaks alpha).length = x.length := by
    simp [u_widened]
  have hL1 : (l_intersected x mart_fn breaks alpha N).getD j (some 0) = none := by
    cases N with
    | none => exact hL0
    | some Nv =>
      rw [l_intersected]
      rw [getD_zipWith _ _ _ j (by rw [hLw]; exact hj)
        (by rw [(logical_cs_length x Nv).1]; exact hj) (some 0) (some 0) 0]
      rw [hL0, nmax_none_left]
  have hU1 : (u_intersected x mart_fn breaks alpha N).getD j (some 0) = none := by
    cases N with
    | none => exact hU0
    | some Nv =>
      rw [u_intersected]
      rw [getD_zipWith _ _ _ j (by rw [hUw]; exact hj)
        (by rw [(logical_cs_length x Nv).2]; exact hj) (some 0) (some 0) 0]
      rw [hU0, nmin_none_left]
  unfold cs_from_martingale
  rw [if_pos rfl]
  constructor
  · exact accumulate_propagate nmax nmax_none_left nmax_none_right _ j s hjs
      (by rw [l_intersected_length]; exact hs) hL1
  · exact accumulate_propagate nmin nmin_none_left nmin_none_right _ j s hjs
      (by rw [u_intersected_length]; exact hs) hU1

/-- Claim C10 (witness): with the constant martingale `[⊤, 1]` on a
two-element stream, a one-cell grid and `α = 1/2`, the region at time
index 0 is empty, and both bounds are NaN at the later index 1 even
though the region at index 1 (`1 ≤ 1/α`) is non-empty. -/
theorem claim_C10_witness :
    (cs_from_martingale [(1/2 : ℚ), 1/2] (fun _ _ => [⊤, ((1 : ℚ) : WithTop ℚ)]) 1 (1/2)
        none true).1.getD 1 (some 0) = none ∧
      (cs_from_martingale [(1/2 : ℚ), 1/2] (fun _ _ => [⊤, ((1 : ℚ) : WithTop ℚ)]) 1 (1/2)
        none true).2.getD 1 (some 0) = none :=
  claim_C10 [(1/2 : ℚ), 1/2] (fun _ _ => [⊤, ((1 : ℚ) : WithTop ℚ)]) 1 (1/2) none 0 1
    (by
      intro i hi
      interval_cases i <;> rfl)
    (by norm_num) (by norm_num)

/-! Lemmas for the nonnegativity of the capital process (claim C3). -/

theorem getD_bounds {x : List ℚ} (hx : ∀ a ∈ x, 0 ≤ a ∧ a ≤ 1) (r : ℕ) :
    0 ≤ x.getD r 0 ∧ x.getD r 0 ≤ 1 := by
  rcases lt_or_le r x.length with h | h
  · rw [List.getD_eq_getElem?_getD, List.getElem?_eq_getElem h]
    exact hx _ (List.getElem_mem h)
  · rw [List.getD_eq_getElem?_getD, List.getElem?_eq_none h]
    norm_num

theorem take_sum_mono {x : List ℚ} (hx : ∀ a ∈ x, 0 ≤ a ∧ a ≤ 1) {s i : ℕ}
    (hsi : s ≤ i) : (x.take s).sum ≤ (x.take i).sum := by
  rw [sum_take_eq_sum_range, sum_take_eq_sum_range]
  exact Finset.sum_le_sum_of_subset_of_nonneg
    (Finset.range_subset.mpr hsi) (fun r _ _ => (getD_bounds hx r).1)

theorem take_sum_diff_le {x : List ℚ} (hx : ∀ a ∈ x, 0 ≤ a ∧ a ≤ 1) {s i : ℕ}
    (hsi : s ≤ i) : (x.take i).sum - (x.take s).sum ≤ (i : ℚ) - (s : ℚ) := by
  rw [sum_take_eq_sum_range, sum_take_eq_sum_range,
    ← Finset.sum_Ico_eq_sub _ hsi]
  have hb : ∑ r ∈ Finset.Ico s i, x.getD r 0 ≤ ∑ r ∈ Finset.Ico s i, (1 : ℚ) :=
    Finset.sum_le_sum (fun r _ => (getD_bounds hx r).2)
  have hc : ∑ r ∈ Finset.Ico s i, (1 : ℚ) = (i : ℚ) - (s : ℚ) := by
    rw [Finset.sum_const, Nat.card_Ico, nsmul_eq_mul, mul_one]
    push_cast [Nat.cast_sub hsi]
    ring
  linarith

theorem mu_absorb_le {x : List ℚ} {m : ℚ} {Nv : ℕ}
    (hx : ∀ a ∈ x, 0 ≤ a ∧ a ≤ 1) (hN : x.length ≤ Nv) {s i : ℕ} (hsi : s ≤ i)
    (hi : i < x.length) (h : mu_t x m (some Nv) s ≤ 0) :
    mu_t x m (some Nv) i ≤ 0 := by
  have hdeni : (0 : ℚ) < (Nv : ℚ) - (i : ℚ) := by
    have : i < Nv := lt_of_lt_of_le hi hN
    have : (i : ℚ) < (Nv : ℚ) := by exact_mod_cast this
    linarith
  have hdens : (0 : ℚ) < (Nv : ℚ) - (s : ℚ) := by
    have hsq : (s : ℚ) ≤ (i : ℚ) := by exact_mod_cast hsi
    linarith
  have hnum_s : (Nv : ℚ) * m - (x.take s).sum ≤ 0 := by
    rcases div_nonpos_iff.mp h with ⟨_, hden⟩ | ⟨hnum, _⟩
    · linarith
    · exact hnum
  have hmono := take_sum_mono hx hsi
  have hnum_i : (Nv : ℚ) * m - (x.take i).sum ≤ 0 := by linarith
  exact div_nonpos_iff.mpr (Or.inr ⟨hnum_i, hdeni.le⟩)

theorem mu_absorb_ge {x : List ℚ} {m : ℚ} {Nv : ℕ}
    (hx : ∀ a ∈ x, 0 ≤ a ∧ a ≤ 1) (hN : x.length ≤ Nv) {s i : ℕ} (hsi : s ≤ i)
    (hi : i < x.length) (h : 1 ≤ mu_t x m (some Nv) s) :
    1 ≤ mu_t x m (some Nv) i := by
  have hdeni : (0 : ℚ) < (Nv : ℚ) - (i : ℚ) := by
    have : i < Nv := lt_of_lt_of_le hi hN
    have : (i : ℚ) < (Nv : ℚ) := by exact_mod_cast this
    linarith
  have hsq : (s : ℚ) ≤ (i : ℚ) := by exact_mod_cast hsi
  have hdens : (0 : ℚ) < (Nv : ℚ) - (s : ℚ) := by linarith
  have hnum_s : (Nv : ℚ) - (s : ℚ) ≤ (Nv : ℚ) * m - (x.take s).sum :=
    (one_le_div hdens).mp h
  have hdiff := take_sum_diff_le hx hsi
  refine (one_le_div hdeni).mpr ?_
  linarith

theorem mu_window {x : List ℚ} {m : ℚ} {N : Option ℕ}
    (hx : ∀ a ∈ x, 0 ≤ a ∧ a ≤ 1) (hN : ∀ Nv ∈ N, x.length ≤ Nv) {i : ℕ}
    (hi : i < x.length) (hopen : ¬(mu_t x m N i ≤ 0 ∨ 1 ≤ mu_t x m N i)) :
    ∀ s ≤ i, 0 < mu_t x m N s ∧ mu_t x m N s < 1 := by
  push_neg at hopen
  intro s hsi
  cases N with
  | none => exact ⟨hopen.1, hopen.2⟩
  | some Nv =>
    have hNv : x.length ≤ Nv := hN Nv rfl
    constructor
    · by_contra hc
      push_neg at hc
      exact absurd (mu_absorb_le hx hNv hsi hi hc) (not_le.mpr hopen.1)
    · by_contra hc
      push_neg at hc
      exact absurd (mu_absorb_ge hx hNv hsi hi hc) (not_le.mpr hopen.2)

theorem trunc_facts {tau mu : ℚ} (mt : Bool) (htau : 0 < tau) (hmu0 : 0 < mu)
    (hmu1 : mu < 1) :
    0 < upper_trunc tau mu mt ∧ 0 < lower_trunc tau mu mt ∧
      upper_trunc tau mu mt * mu ≤ tau ∧ lower_trunc tau mu mt * (1 - mu) ≤ tau := by
  cases mt with
  | false =>
    refine ⟨htau, htau, ?_, ?_⟩
    · calc tau * mu ≤ tau * 1 := by nlinarith
        _ = tau := mul_one tau
    · calc tau * (1 - mu) ≤ tau * 1 := by nlinarith
        _ = tau := mul_one tau
  | true =>
    have h1 : upper_trunc tau mu true = tau / mu := by
      unfold upper_trunc
      rw [if_pos rfl, if_neg hmu0.ne']
    have h2 : lower_trunc tau mu true = tau / (1 - mu) := by
      unfold lower_trunc
      rw [if_pos rfl, if_neg (by intro hc; rw [hc] at hmu1; exact absurd hmu1 (lt_irrefl 1))]
    rw [h1, h2]
    refine ⟨div_pos htau hmu0, div_pos htau (by linarith), ?_, ?_⟩
    · rw [div_mul_cancel₀ _ hmu0.ne']
    · rw [div_mul_cancel₀ _ (by intro hc; rw [sub_eq_zero] at hc; rw [← hc] at hmu1; exact absurd hmu1 (lt_irrefl _))]

theorem clip_bounds (lo hi v : ℚ) (hlo : 0 < lo) (hhi : 0 < hi) :
    -lo ≤ min hi (max (-lo) v) ∧ min hi (max (-lo) v) ≤ hi :=
  ⟨le_min (by linarith) (le_max_left _ _), min_le_left _ _⟩

theorem factor_nonneg {lam xs mu tau U L : ℚ} (hU : 0 < U) (hL : 0 < L)
    (hUm : U * mu ≤ tau) (hLm : L * (1 - mu) ≤ tau)
    (hlam1 : -L ≤ lam) (hlam2 : lam ≤ U) (hxs0 : 0 ≤ xs) (hxs1 : xs ≤ 1)
    (hmu0 : 0 < mu) (hmu1 : mu < 1) (htau1 : tau ≤ 1) :
    0 ≤ 1 + lam * (xs - mu) := by
  rcases le_or_lt mu xs with hc | hc
  · have h2 : -L * (xs - mu) ≤ lam * (xs - mu) :=
      mul_le_mul_of_nonneg_right hlam1 (by linarith)
    have h3 : L * (xs - mu) ≤ L * (1 - mu) :=
      mul_le_mul_of_nonneg_left (by linarith) hL.le
    nlinarith
  · have h2 : U * (xs - mu) ≤ lam * (xs - mu) := by
      nlinarith
    have h3 : U * (0 - mu) ≤ U * (xs - mu) :=
      mul_le_mul_of_nonneg_left (by linarith) hU.le
    nlinarith

theorem capital_pos_nonneg (x : List ℚ) (m tau : ℚ) (f : List ℚ → ℚ → List ℚ)
    (N : Option ℕ) (mt : Bool) (htau : 0 < tau) (htau1 : tau ≤ 1)
    (hx : ∀ a ∈ x, 0 ≤ a ∧ a ≤ 1) {i : ℕ}
    (hwin : ∀ s ≤ i, 0 < mu_t x m N s ∧ mu_t x m N s < 1) :
    0 ≤ capital_process_positive x m f N tau mt i := by
  unfold capital_process_positive
  refine Finset.prod_nonneg (fun s hs => ?_)
  have hsi : s ≤ i := Nat.lt_succ_iff.mp (Finset.mem_range.mp hs)
  obtain ⟨hmu0, hmu1⟩ := hwin s hsi
  obtain ⟨hUp, hLp, hUm, hLm⟩ := trunc_facts mt htau hmu0 hmu1
  have hclip := clip_bounds (lower_trunc tau (mu_t x m N s) mt)
    (upper_trunc tau (mu_t x m N s) mt) ((f x m).getD s 0) hLp hUp
  exact factor_nonneg hUp hLp hUm hLm hclip.1 hclip.2 (getD_bounds hx s).1
    (getD_bounds hx s).2 hmu0 hmu1 htau1

theorem capital_neg_nonneg (x : List ℚ) (m tau : ℚ) (g : List ℚ → ℚ → List ℚ)
    (N : Option ℕ) (mt : Bool) (htau : 0 < tau) (htau1 : tau ≤ 1)
    (hx : ∀ a ∈ x, 0 ≤ a ∧ a ≤ 1) {i : ℕ}
    (hwin : ∀ s ≤ i, 0 < mu_t x m N s ∧ mu_t x m N s < 1) :
    0 ≤ capital_process_negative x m g N tau mt i := by
  unfold capital_process_negative
  refine Finset.prod_nonneg (fun s hs => ?_)
  have hsi : s ≤ i := Nat.lt_succ_iff.mp (Finset.mem_range.mp hs)
  obtain ⟨hmu0, hmu1⟩ := hwin s hsi
  obtain ⟨hUp, hLp, hUm, hLm⟩ := trunc_facts mt htau hmu0 hmu1
  have hclip := clip_bounds (upper_trunc tau (mu_t x m N s) mt)
    (lower_trunc tau (mu_t x m N s) mt) ((g x m).getD s 0) hUp hLp
  have hlneg : lambda_neg x m g N tau mt s =
      min (lower_trunc tau (mu_t x m N s) mt)
        (max (-(upper_trunc tau (mu_t x m N s) mt)) ((g x m).getD s 0)) := rfl
  have hb1 : -(lower_trunc tau (mu_t x m N s) mt) ≤ -(lambda_neg x m g N tau mt s) := by
    rw [hlneg]; exact neg_le_neg hclip.2
  have hb2 : -(lambda_neg x m g N tau mt s) ≤ upper_trunc tau (mu_t x m N s) mt := by
    rw [hlneg]; linarith [hclip.1]
  have hfac := factor_nonneg hUp hLp hUm hLm hb1 hb2 (getD_bounds hx s).1
    (getD_bounds hx s).2 hmu0 hmu1 htau1
  calc (0 : ℚ)
      ≤ 1 + (-(lambda_neg x m g N tau mt s)) * (x.getD s 0 - mu_t x m N s) := hfac
    _ = 1 - lambda_neg x m g N tau mt s * (x.getD s 0 - mu_t x m N s) := by ring

/-- Claim C3.  For every stream with all entries in `[0,1]`, every
`m ∈ [0,1]`, `θ ∈ [0,1]`, `trunc_scale ∈ (0,1]`, arbitrary
bet-generating functions, both values of `m_trunc` and with or without
a population size `N ≥ n`, every entry of the capital process returned
by `betting_mart` is nonnegative (`+∞` allowed), so the assertion
`all(capital_process >= 0)` in the code never fails.  In the
without-replacement case a factor at a position with `μ_s ∉ (0,1)` may
be negative, but `μ ∉ (0,1)` is absorbing, so that position and all
subsequent ones are masked to `+∞`. -/
theorem claim_C3 (x : List ℚ) (m theta tau : ℚ) (f g : List ℚ → ℚ → List ℚ)
    (N : Option ℕ) (cc mt : Bool)
    (hx : ∀ a ∈ x, 0 ≤ a ∧ a ≤ 1) (hm0 : 0 ≤ m) (hm1 : m ≤ 1)
    (hth0 : 0 ≤ theta) (hth1 : theta ≤ 1) (htau : 0 < tau) (htau1 : tau ≤ 1)
    (hN : ∀ Nv ∈ N, x.length ≤ Nv) :
    ∀ v ∈ betting_mart x m f g N cc theta tau mt, 0 ≤ v := by
  intro v hv
  unfold betting_mart at hv
  rcases List.mem_map.mp hv with ⟨i, hi_mem, rfl⟩
  have hi : i < x.length := List.mem_range.mp hi_mem
  by_cases hmask : mu_t x m N i ≤ 0 ∨ 1 ≤ mu_t x m N i
  · rw [if_pos hmask]
    exact le_top
  · rw [if_neg hmask]
    have hwin := mu_window hx hN hi hmask
    have hpcp := capital_pos_nonneg x m tau f N mt htau htau1 hx hwin
    have hncp := capital_neg_nonneg x m tau g N mt htau htau1 hx hwin
    have hcomb : 0 ≤ capital_combined x m f g N cc theta tau mt i := by
      unfold capital_combined
      by_cases h1 : theta = 1
      · rw [if_pos h1]
        exact mul_nonneg hth0 hpcp
      · rw [if_neg h1]
        by_cases h0 : theta = 0
        · rw [if_pos h0]
          exact mul_nonneg (by linarith) hncp
        · rw [if_neg h0]
          cases cc with
          | true =>
            rw [if_pos rfl]
            exact add_nonneg (mul_nonneg hth0 hpcp) (mul_nonneg (by linarith) hncp)
          | false =>
            rw [if_neg (by simp)]
            exact le_max_of_le_left (mul_nonneg hth0 hpcp)
    rw [← WithTop.coe_zero]
    exact WithTop.coe_le_coe.mpr hcomb

theorem getD_mem_of_lt {α : Type} (l : List α) (n : ℕ) (d : α) (h : n < l.length) :
    l.getD n d ∈ l := by
  rw [List.getD_eq_getElem?_getD, List.getElem?_eq_getElem h]
  exact List.getElem_mem h

/-- Claim C3 (witness): on `x = [1/2, 0]`, `m = 1/2` with constant bets
`3` (truncated by the clipping), `N = 3`, both returned capital values
are nonnegative. -/
theorem claim_C3_witness :
    0 ≤ (betting_mart [(1/2 : ℚ), 0] (1/2) (fun _ _ => [3, 3]) (fun _ _ => [3, 3])
      (some 3) false (1/2) (1/2) true).getD 0 ⊤ ∧
    0 ≤ (betting_mart [(1/2 : ℚ), 0] (1/2) (fun _ _ => [3, 3]) (fun _ _ => [3, 3])
      (some 3) false (1/2) (1/2) true).getD 1 ⊤ := by
  have h := claim_C3 [(1/2 : ℚ), 0] (1/2) (1/2) (1/2) (fun _ _ => [3, 3])
    (fun _ _ => [3, 3]) (some 3) false true
    (by
      intro a ha
      rcases List.mem_cons.mp ha with h | h
      · subst h; constructor <;> norm_num
      · rw [List.mem_singleton] at h; subst h; constructor <;> norm_num)
    (by norm_num) (by norm_num) (by norm_num) (by norm_num) (by norm_num)
    (by norm_num)
    (by intro Nv hNv; cases hNv; simp)
  have hlen : (betting_mart [(1/2 : ℚ), 0] (1/2) (fun _ _ => [3, 3])
      (fun _ _ => [3, 3]) (some 3) false (1/2) (1/2) true).length = 2 := by
    rw [betting_mart_length]
    rfl
  exact ⟨h _ (getD_mem_of_lt _ 0 ⊤ (by rw [hlen]; norm_num)),
    h _ (getD_mem_of_lt _ 1 ⊤ (by rw [hlen]; norm_num))⟩

/-! Lemmas for the monotonicity of the confidence sequence in the
significance level (claim C5). -/

theorem head?_filter_rel {α : Type} {r : α → α → Prop} :
    ∀ {l : List α}, l.Pairwise r → ∀ (q : α → Bool) {i : α}, i ∈ l.filter q →
      ∃ h, (l.filter q).head? = some h ∧ (h = i ∨ r h i) := by
  intro l
  induction l with
  | nil => intro _ q i hi; simp at hi
  | cons a t ih =>
    intro hp q i hi
    rw [List.filter_cons] at hi ⊢
    by_cases hq : q a = true
    · simp only [hq, if_true] at hi ⊢
      refine ⟨a, rfl, ?_⟩
      rcases List.mem_cons.mp hi with h | h
      · exact Or.inl h.symm
      · exact Or.inr ((List.pairwise_cons.mp hp).1 i (List.mem_of_mem_filter h))
    · simp only [hq, if_false] at hi ⊢
      exact ih (List.pairwise_cons.mp hp).2 q hi

theorem getLast?_filter_rel {α : Type} {r : α → α → Prop} {l : List α}
    (hp : l.Pairwise r) (q : α → Bool) {i : α} (hi : i ∈ l.filter q) :
    ∃ h, (l.filter q).getLast? = some h ∧ (h = i ∨ r i h) := by
  have hrev : l.reverse.Pairwise (fun a b => r b a) := List.pairwise_reverse.mpr hp
  have hi' : i ∈ l.reverse.filter q := by
    rw [List.filter_reverse, List.mem_reverse]
    exact hi
  obtain ⟨h, hh, hcmp⟩ := head?_filter_rel hrev q hi'
  rw [List.filter_reverse, List.head?_reverse] at hh
  exact ⟨h, hh, hcmp⟩

theorem confseq_mtx_mono {x : List F} {mf : List F → F → List (WithTop F)}
    {breaks : ℕ} {a a' : F} (ha : 0 < a) (haa' : a ≤ a') {i j : ℕ}
    (h : confseq_mtx x mf breaks a' i j = true) :
    confseq_mtx x mf breaks a i j = true := by
  rw [confseq_mtx, decide_eq_true_eq] at h ⊢
  refine le_trans h ?_
  rw [WithTop.coe_le_coe]
  exact one_div_le_one_div_of_le ha haa'

theorem where_in_cs_mono {x : List F} {mf : List F → F → List (WithTop F)}
    {breaks : ℕ} {a a' : F} (ha : 0 < a) (haa' : a ≤ a') {i j : ℕ}
    (h : i ∈ where_in_cs x mf breaks a' j) : i ∈ where_in_cs x mf breaks a j := by
  rw [where_in_cs, List.mem_filter] at h ⊢
  exact ⟨h.1, confseq_mtx_mono ha haa' h.2⟩

theorem possible_m_mono {breaks : ℕ} {h i : ℕ} (hle : h ≤ i) :
    (possible_m breaks h : F) ≤ possible_m breaks i := by
  unfold possible_m
  by_cases hb : (breaks : F) = 0
  · rw [hb, div_zero, div_zero]
  · have hbpos : (0 : F) < (breaks : F) :=
      lt_of_le_of_ne (Nat.cast_nonneg _) (Ne.symm hb)
    exact (div_le_div_right hbpos).mpr (Nat.cast_le.mpr hle)

theorem l_pre_mono {x : List F} {mf : List F → F → List (WithTop F)}
    {breaks : ℕ} {a a' : F} (ha : 0 < a) (haa' : a ≤ a') (j : ℕ)
    (hne : where_in_cs x mf breaks a' j ≠ []) :
    ∃ v v' : F, l_pre x mf breaks a j = some v ∧
      l_pre x mf breaks a' j = some v' ∧ v ≤ v' := by
  obtain ⟨i', t', heq⟩ := List.exists_cons_of_ne_nil hne
  have hmem' : i' ∈ where_in_cs x mf breaks a' j := by
    rw [heq]; exact List.mem_cons_self i' t'
  have hhead' : (where_in_cs x mf breaks a' j).head? = some i' := by rw [heq]; rfl
  have hmem : i' ∈ where_in_cs x mf breaks a j := where_in_cs_mono ha haa' hmem'
  rw [where_in_cs] at hmem
  obtain ⟨h, hh, hcmp⟩ := head?_filter_rel (List.pairwise_le_range (breaks + 1)) _ hmem
  have hhi : h ≤ i' := by
    rcases hcmp with rfl | hlt
    · exact le_rfl
    · exact hlt
  refine ⟨possible_m breaks h, possible_m breaks i', ?_, ?_, possible_m_mono hhi⟩
  · rw [l_pre, where_in_cs, hh]; rfl
  · rw [l_pre, hhead']; rfl

theorem u_pre_mono {x : List F} {mf : List F → F → List (WithTop F)}
    {breaks : ℕ} {a a' : F} (ha : 0 < a) (haa' : a ≤ a') (j : ℕ)
    (hne : where_in_cs x mf breaks a' j ≠ []) :
    ∃ v v' : F, u_pre x mf breaks a j = some v ∧
      u_pre x mf breaks a' j = some v' ∧ v' ≤ v := by
  have hsome : (where_in_cs x mf breaks a' j).getLast?.isSome :=
    List.getLast?_isSome.mpr hne
  obtain ⟨i', hlast'⟩ := Option.isSome_iff_exists.mp hsome
  have hmem' : i' ∈ where_in_cs x mf breaks a' j := List.mem_of_getLast?_eq_some hlast'
  have hmem : i' ∈ where_in_cs x mf breaks a j := where_in_cs_mono ha haa' hmem'
  rw [where_in_cs] at hmem
  obtain ⟨h, hh, hcmp⟩ := getLast?_filter_rel (List.pairwise_le_range (breaks + 1)) _ hmem
  have hhi : i' ≤ h := by
    rcases hcmp with rfl | hlt
    · exact le_rfl
    · exact hlt
  refine ⟨possible_m breaks h, possible_m breaks i', ?_, ?_, possible_m_mono hhi⟩
  · rw [u_pre, where_in_cs, hh]; rfl
  · rw [u_pre, hlast']; rfl

theorem l_intersected_mono {x : List F} {mf : List F → F → List (WithTop F)}
    {breaks : ℕ} {a a' : F} (ha : 0 < a) (haa' : a ≤ a') (N : Option ℕ) {j : ℕ}
    (hj : j < x.length) (hne : where_in_cs x mf breaks a' j ≠ []) :
    ∃ v v' : F, (l_intersected x mf breaks a N).getD j (some 0) = some v ∧
      (l_intersected x mf breaks a' N).getD j (some 0) = some v' ∧ v ≤ v' := by
  obtain ⟨w, w', hw, hw', hww⟩ := l_pre_mono ha haa' j hne
  have hlw : (l_widened x mf breaks a).getD j (some 0)
      = some (max 0 (w - 1 / (breaks : F))) := by
    rw [l_widened, getD_map_range _ hj, hw]; rfl
  have hlw' : (l_widened x mf breaks a').getD j (some 0)
      = some (max 0 (w' - 1 / (breaks : F))) := by
    rw [l_widened, getD_map_range _ hj, hw']; rfl
  have hmax : max 0 (w - 1 / (breaks : F)) ≤ max 0 (w' - 1 / (breaks : F)) :=
    max_le_max le_rfl (sub_le_sub_right hww _)
  cases N with
  | none => exact ⟨_, _, hlw, hlw', hmax⟩
  | some Nv =>
    have hlen : (l_widened x mf breaks a).length = x.length := by simp [l_widened]
    have hlen' : (l_widened x mf breaks a').length = x.length := by simp [l_widened]
    refine ⟨max (max 0 (w - 1 / (breaks : F))) ((logical_cs x Nv).1.getD j 0),
      max (max 0 (w' - 1 / (breaks : F))) ((logical_cs x Nv).1.getD j 0), ?_, ?_, ?_⟩
    · rw [l_intersected, getD_zipWith _ _ _ j (by rw [hlen]; exact hj)
        (by rw [(logical_cs_length x Nv).1]; exact hj) (some 0) (some 0) 0, hlw]
      rfl
    · rw [l_intersected, getD_zipWith _ _ _ j (by rw [hlen']; exact hj)
        (by rw [(logical_cs_length x Nv).1]; exact hj) (some 0) (some 0) 0, hlw']
      rfl
    · exact max_le_max hmax le_rfl

theorem u_intersected_mono {x : List F} {mf : List F → F → List (WithTop F)}
    {breaks : ℕ} {a a' : F} (ha : 0 < a) (haa' : a ≤ a') (N : Option ℕ) {j : ℕ}
    (hj : j < x.length) (hne : where_in_cs x mf breaks a' j ≠ []) :
    ∃ v v' : F, (u_intersected x mf breaks a N).getD j (some 0) = some v ∧
      (u_intersected x mf breaks a' N).getD j (some 0) = some v' ∧ v' ≤ v := by
  obtain ⟨w, w', hw, hw', hww⟩ := u_pre_mono ha haa' j hne
  have huw : (u_widened x mf breaks a).getD j (some 0)
      = some (min 1 (w + 1 / (breaks : F))) := by
    rw [u_widened, getD_map_range _ hj, hw]; rfl
  have huw' : (u_widened x mf breaks a').getD j (some 0)
      = some (min 1 (w' + 1 / (breaks : F))) := by
    rw [u_widened, getD_map_range _ hj, hw']; rfl
  have hmin : min 1 (w' + 1 / (breaks : F)) ≤ min 1 (w + 1 / (breaks : F)) :=
    min_le_min le_rfl (add_le_add_right hww _)
  cases N with
  | none => exact ⟨_, _, huw, huw', hmin⟩
  | some Nv =>
    have hlen : (u_widened x mf breaks a).length = x.length := by simp [u_widened]
    have hlen' : (u_widened x mf breaks a').length = x.length := by simp [u_widened]
    refine ⟨min (min 1 (w + 1 / (breaks : F))) ((logical_cs x Nv).2.getD j 0),
      min (min 1 (w' + 1 / (breaks : F))) ((logical_cs x Nv).2.getD j 0), ?_, ?_, ?_⟩
    · rw [u_intersected, getD_zipWith _ _ _ j (by rw [hlen]; exact hj)
        (by rw [(logical_cs_length x Nv).2]; exact hj) (some 0) (some 0) 0, huw]
      rfl
    · rw [u_intersected, getD_zipWith _ _ _ j (by rw [hlen']; exact hj)
        (by rw [(logical_cs_length x Nv).2]; exact hj) (some 0) (some 0) 0, huw']
      rfl
    · exact min_le_min hmin le_rfl

theorem accumRun_nmax_mono :
    ∀ (l l' : List (Option F)) (acc acc' : F) (t : ℕ), acc ≤ acc' →
      t < l.length → t < l'.length →
      (∀ s, s ≤ t → ∃ v v' : F, l.getD s (some 0) = some v ∧
        l'.getD s (some 0) = some v' ∧ v ≤ v') →
      ∃ w w' : F, (accumRun nmax (some acc) l).getD t (some 0) = some w ∧
        (accumRun nmax (some acc') l').getD t (some 0) = some w' ∧ w ≤ w'
  | [], _, _, _, t, _, ht, _, _ => absurd ht (Nat.not_lt_zero t)
  | _ :: _, [], _, _, t, _, _, ht', _ => absurd ht' (Nat.not_lt_zero t)
  | h :: tl, h' :: tl', acc, acc', 0, hacc, _, _, hyp => by
    obtain ⟨v, v', hv, hv', hvv⟩ := hyp 0 le_rfl
    rw [List.getD_cons_zero] at hv hv'
    subst hv hv'
    exact ⟨max acc v, max acc' v', rfl, rfl, max_le_max hacc hvv⟩
  | h :: tl, h' :: tl', acc, acc', t + 1, hacc, ht, ht', hyp => by
    obtain ⟨v, v', hv, hv', hvv⟩ := hyp 0 (Nat.zero_le _)
    rw [List.getD_cons_zero] at hv hv'
    subst hv hv'
    simp only [accumRun, List.getD_cons_succ]
    have hyp' : ∀ s, s ≤ t → ∃ w w' : F, tl.getD s (some 0) = some w ∧
        tl'.getD s (some 0) = some w' ∧ w ≤ w' := by
      intro s hs
      obtain ⟨w, w', h1, h2, h3⟩ := hyp (s + 1) (Nat.succ_le_succ hs)
      rw [List.getD_cons_succ] at h1 h2
      exact ⟨w, w', h1, h2, h3⟩
    exact accumRun_nmax_mono tl tl' (max acc v) (max acc' v') t
      (max_le_max hacc hvv) (Nat.lt_of_succ_lt_succ ht) (Nat.lt_of_succ_lt_succ ht')
      hyp'

theorem accumRun_nmin_mono :
    ∀ (l l' : List (Option F)) (acc acc' : F) (t : ℕ), acc' ≤ acc →
      t < l.length → t < l'.length →
      (∀ s, s ≤ t → ∃ v v' : F, l.getD s (some 0) = some v ∧
        l'.getD s (some 0) = some v' ∧ v' ≤ v) →
      ∃ w w' : F, (accumRun nmin (some acc) l).getD t (some 0) = some w ∧
        (accumRun nmin (some acc') l').getD t (some 0) = some w' ∧ w' ≤ w
  | [], _, _, _, t, _, ht, _, _ => absurd ht (Nat.not_lt_zero t)
  | _ :: _, [], _, _, t, _, _, ht', _ => absurd ht' (Nat.not_lt_zero t)
  | h :: tl, h' :: tl', acc, acc', 0, hacc, _, _, hyp => by
    obtain ⟨v, v', hv, hv', hvv⟩ := hyp 0 le_rfl
    rw [List.getD_cons_zero] at hv hv'
    subst hv hv'
    exact ⟨min acc v, min acc' v', rfl, rfl, min_le_min hacc hvv⟩
  | h :: tl, h' :: tl', acc, acc', t + 1, hacc, ht, ht', hyp => by
    obtain ⟨v, v', hv, hv', hvv⟩ := hyp 0 (Nat.zero_le _)
    rw [List.getD_cons_zero] at hv hv'
    subst hv hv'
    simp only [accumRun, List.getD_cons_succ]
    have hyp' : ∀ s, s ≤ t → ∃ w w' : F, tl.getD s (some 0) = some w ∧
        tl'.getD s (some 0) = some w' ∧ w' ≤ w := by
      intro s hs
      obtain ⟨w, w', h1, h2, h3⟩ := hyp (s + 1) (Nat.succ_le_succ hs)
      rw [List.getD_cons_succ] at h1 h2
      exact ⟨w, w', h1, h2, h3⟩
    exact accumRun_nmin_mono tl tl' (min acc v) (min acc' v') t
      (min_le_min hacc hvv) (Nat.lt_of_succ_lt_succ ht) (Nat.lt_of_succ_lt_succ ht')
      hyp'

theorem accumulate_nmax_mono (l l' : List (Option F)) (t : ℕ)
    (ht : t < l.length) (ht' : t < l'.length)
    (hyp : ∀ s, s ≤ t → ∃ v v' : F, l.getD s (some 0) = some v ∧
      l'.getD s (some 0) = some v' ∧ v ≤ v') :
    ∃ w w' : F, (accumulate nmax l).getD t (some 0) = some w ∧
      (accumulate nmax l').getD t (some 0) = some w' ∧ w ≤ w' := by
  match l, l', t with
  | [], _, t => exact absurd ht (Nat.not_lt_zero t)
  | _ :: _, [], t => exact absurd ht' (Nat.not_lt_zero t)
  | h :: tl, h' :: tl', 0 =>
    obtain ⟨v, v', hv, hv', hvv⟩ := hyp 0 le_rfl
    rw [List.getD_cons_zero] at hv hv'
    subst hv hv'
    exact ⟨v, v', rfl, rfl, hvv⟩
  | h :: tl, h' :: tl', t + 1 =>
    obtain ⟨v, v', hv, hv', hvv⟩ := hyp 0 (Nat.zero_le _)
    rw [List.getD_cons_zero] at hv hv'
    subst hv hv'
    simp only [accumulate, List.getD_cons_succ]
    refine accumRun_nmax_mono tl tl' v v' t hvv (Nat.lt_of_succ_lt_succ ht)
      (Nat.lt_of_succ_lt_succ ht') ?_
    intro s hs
    obtain ⟨w, w', h1, h2, h3⟩ := hyp (s + 1) (Nat.succ_le_succ hs)
    rw [List.getD_cons_succ] at h1 h2
    exact ⟨w, w', h1, h2, h3⟩

theorem accumulate_nmin_mono (l l' : List (Option F)) (t : ℕ)
    (ht : t < l.length) (ht' : t < l'.length)
    (hyp : ∀ s, s ≤ t → ∃ v v' : F, l.getD s (some 0) = some v ∧
      l'.getD s (some 0) = some v' ∧ v' ≤ v) :
    ∃ w w' : F, (accumulate nmin l).getD t (some 0) = some w ∧
      (accumulate nmin l').getD t (some 0) = some w' ∧ w' ≤ w := by
  match l, l', t with
  | [], _, t => exact absurd ht (Nat.not_lt_zero t)
  | _ :: _, [], t => exact absurd ht' (Nat.not_lt_zero t)
  | h :: tl, h' :: tl', 0 =>
    obtain ⟨v, v', hv, hv', hvv⟩ := hyp 0 le_rfl
    rw [List.getD_cons_zero] at hv hv'
    subst hv hv'
    exact ⟨v, v', rfl, rfl, hvv⟩
  | h :: tl, h' :: tl', t + 1 =>
    obtain ⟨v, v', hv, hv', hvv⟩ := hyp 0 (Nat.zero_le _)
    rw [List.getD_cons_zero] at hv hv'
    subst hv hv'
    simp only [accumulate, List.getD_cons_succ]
    refine accumRun_nmin_mono tl tl' v v' t hvv (Nat.lt_of_succ_lt_succ ht)
      (Nat.lt_of_succ_lt_succ ht') ?_
    intro s hs
    obtain ⟨w, w', h1, h2, h3⟩ := hyp (s + 1) (Nat.succ_le_succ hs)
    rw [List.getD_cons_succ] at h1 h2
    exact ⟨w, w', h1, h2, h3⟩

/-- Claim C5 (amended).  For two significance levels `0 < α ≤ α'` and
all other inputs of `cs_from_martingale` held equal — the same stream,
the same martingale function, grid, population size and flags — the
confidence sequence at the larger level `α'` is weakly narrower at
every time `t` at which the grid region at level `α'` is nonempty at
all times up to `t`: both bounds are real (not NaN) at both levels and
`l_t(α') ≥ l_t(α)`, `u_t(α') ≤ u_t(α)`.  When the `α'`-region is empty
the `α'`-bounds are NaN and the stated inequalities fail, as in the
counterexample; and in `betting_cs` with the default
predictable-mixture bets the martingale function itself depends on
`α`, so the two runs need not evaluate the same martingale at all. -/
theorem claim_C5 (x : List F) (mf : List F → F → List (WithTop F)) (breaks : ℕ)
    (N : Option ℕ) (ri : Bool) (a a' : F) (ha : 0 < a) (haa' : a ≤ a')
    (t : ℕ) (ht : t < x.length)
    (hne : ∀ s, s ≤ t → where_in_cs x mf breaks a' s ≠ []) :
    ∃ la ua la' ua' : F,
      (cs_from_martingale x mf breaks a N ri).1.getD t (some 0) = some la ∧
      (cs_from_martingale x mf breaks a N ri).2.getD t (some 0) = some ua ∧
      (cs_from_martingale x mf breaks a' N ri).1.getD t (some 0) = some la' ∧
      (cs_from_martingale x mf breaks a' N ri).2.getD t (some 0) = some ua' ∧
      la ≤ la' ∧ ua' ≤ ua := by
  unfold cs_from_martingale
  cases ri with
  | false =>
    rw [if_neg (by simp)]
    obtain ⟨v, v', h1, h2, h3⟩ := l_intersected_mono ha haa' N ht (hne t le_rfl)
    obtain ⟨w, w', h4, h5, h6⟩ := u_intersected_mono ha haa' N ht (hne t le_rfl)
    exact ⟨v, w, v', w', h1, h4, h2, h5, h3, h6⟩
  | true =>
    rw [if_pos rfl]
    obtain ⟨v, v', h1, h2, h3⟩ := accumulate_nmax_mono
      (l_intersected x mf breaks a N) (l_intersected x mf breaks a' N) t
      (by rw [l_intersected_length]; exact ht)
      (by rw [l_intersected_length]; exact ht)
      (fun s hs => l_intersected_mono ha haa' N (lt_of_le_of_lt hs ht) (hne s hs))
    obtain ⟨w, w', h4, h5, h6⟩ := accumulate_nmin_mono
      (u_intersected x mf breaks a N) (u_intersected x mf breaks a' N) t
      (by rw [u_intersected_length]; exact ht)
      (by rw [u_intersected_length]; exact ht)
      (fun s hs => u_intersected_mono ha haa' N (lt_of_le_of_lt hs ht) (hne s hs))
    exact ⟨v, w, v', w', h1, h4, h2, h5, h3, h6⟩

/-- Claim C5 (witness to the amended theorem): with the constant
martingale `[1]` on a one-element stream, a two-cell grid and levels
`1/4 ≤ 1/2`, both regions are nonempty and the bounds at the larger
level are (weakly) inside those at the smaller level. -/
theorem claim_C5_witness :
    ∃ la ua la' ua' : ℚ,
      (cs_from_martingale [(1/2 : ℚ)] (fun _ _ => [((1 : ℚ) : WithTop ℚ)]) 1 (1/4)
        none true).1.getD 0 (some 0) = some la ∧
      (cs_from_martingale [(1/2 : ℚ)] (fun _ _ => [((1 : ℚ) : WithTop ℚ)]) 1 (1/4)
        none true).2.getD 0 (some 0) = some ua ∧
      (cs_from_martingale [(1/2 : ℚ)] (fun _ _ => [((1 : ℚ) : WithTop ℚ)]) 1 (1/2)
        none true).1.getD 0 (some 0) = some la' ∧
      (cs_from_martingale [(1/2 : ℚ)] (fun _ _ => [((1 : ℚ) : WithTop ℚ)]) 1 (1/2)
        none true).2.getD 0 (some 0) = some ua' ∧
      la ≤ la' ∧ ua' ≤ ua :=
  claim_C5 [(1/2 : ℚ)] (fun _ _ => [((1 : ℚ) : WithTop ℚ)]) 1 none true (1/4) (1/2)
    (by norm_num) (by norm_num) 0 (by simp)
    (by
      intro s hs
      interval_cases s
      simp only [where_in_cs, confseq_mtx, possible_m]
      norm_num [List.range_succ, WithTop.coe_le_coe]
      simp)

/-- Claim C5 (counterexample).  The claim asserts that for `α < α'`
and all other inputs of `betting_cs` equal (default bets), the CS at
the larger level satisfies `l_t(α') ≥ l_t(α)` and `u_t(α') ≤ u_t(α)`
at every `t`.  On the stream of six ones with grid `{0, 1/2, 1}`
(`breaks = 2`), the default bets at both levels `α = 1/100` and
`α' = 1/4` clip to `λ_t = 1` at the interior grid point, so the
martingale there is `max((3/2)^t, (1/2)^t)/2` at both levels; at
`t = 6` its value `729/128 ≈ 5.7` exceeds `1/α' = 4` but not
`1/α = 100`, and the masked endpoints are rejected at both levels.
Hence the region at level `1/4` is empty — the code returns NaN for
both bounds — while the level-`1/100` bounds are `(0, 1)`.  A NaN is
not `≥ 0` (float comparisons with NaN are false), so the claimed
inequality `l_t(α') ≥ l_t(α)` fails at `t = 6`. -/
theorem claim_C5_counterexample :
    (betting_cs (List.replicate 6 (1 : ℝ)) (1/100) none 2 false false (1/2) (1/2)
      true).1.getD 5 (some 37) = some 0 ∧
    (betting_cs (List.replicate 6 (1 : ℝ)) (1/100) none 2 false false (1/2) (1/2)
      true).2.getD 5 (some 37) = some 1 ∧
    (betting_cs (List.replicate 6 (1 : ℝ)) (1/4) none 2 false false (1/2) (1/2)
      true).1.getD 5 (some 37) = none ∧
    (betting_cs (List.replicate 6 (1 : ℝ)) (1/4) none 2 false false (1/2) (1/2)
      true).2.getD 5 (some 37) = none := by
  have hlog2 : (0:ℝ) < Real.log 2 := Real.log_pos (by norm_num)
  have hlog4 : Real.log 4 = 2 * Real.log 2 := by
    rw [show (4:ℝ) = 2^2 by norm_num, Real.log_pow]
    push_cast
    ring
  have hlog3 : Real.log 3 ≤ 8/5 * Real.log 2 := by
    have h := Real.log_le_log (by positivity : (0:ℝ) < 3^5)
      (by norm_num : (3:ℝ)^5 ≤ 2^8)
    rw [Real.log_pow, Real.log_pow] at h
    push_cast at h
    linarith
  have hlog5 : Real.log 5 ≤ 7/3 * Real.log 2 := by
    have h := Real.log_le_log (by positivity : (0:ℝ) < 5^3)
      (by norm_num : (5:ℝ)^3 ≤ 2^7)
    rw [Real.log_pow, Real.log_pow] at h
    push_cast at h
    linarith
  have hlog7 : Real.log 7 ≤ 17/6 * Real.log 2 := by
    have h := Real.log_le_log (by positivity : (0:ℝ) < 7^6)
      (by norm_num : (7:ℝ)^6 ≤ 2^17)
    rw [Real.log_pow, Real.log_pow] at h
    push_cast at h
    linarith
  have hlog6 : Real.log 6 ≤ 13/5 * Real.log 2 := by
    rw [show (6:ℝ) = 2*3 by norm_num, Real.log_mul (by norm_num) (by norm_num)]
    linarith
  have hl3p : (0:ℝ) < Real.log 3 := Real.log_pos (by norm_num)
  have hl5p : (0:ℝ) < Real.log 5 := Real.log_pos (by norm_num)
  have hl6p : (0:ℝ) < Real.log 6 := Real.log_pos (by norm_num)
  have hl7p : (0:ℝ) < Real.log 7 := Real.log_pos (by norm_num)
  have hs0 : sigma2_tminus1 (List.replicate 6 (1:ℝ)) (1/2) (1/4) 1 0 = 1/4 := rfl
  have hs1 : sigma2_tminus1 (List.replicate 6 (1:ℝ)) (1/2) (1/4) 1 1 = 5/32 := by
    show sigma2_t (List.replicate 6 (1:ℝ)) (1/2) (1/4) 1 0 = 5/32
    simp only [sigma2_t, mu_hat_t, Finset.sum_range_one]
    norm_num [List.take_replicate, List.sum_replicate, List.getD_eq_getElem?_getD,
      List.getElem?_replicate, smul_eq_mul]
  have hs2 : sigma2_tminus1 (List.replicate 6 (1:ℝ)) (1/2) (1/4) 1 2 = 49/432 := by
    show sigma2_t (List.replicate 6 (1:ℝ)) (1/2) (1/4) 1 1 = 49/432
    simp only [sigma2_t, mu_hat_t, Finset.sum_range_succ, Finset.sum_range_one]
    norm_num [List.take_replicate, List.sum_replicate, List.getD_eq_getElem?_getD,
      List.getElem?_replicate, smul_eq_mul]
  have hs3 : sigma2_tminus1 (List.replicate 6 (1:ℝ)) (1/2) (1/4) 1 3 = 205/2304 := by
    show sigma2_t (List.replicate 6 (1:ℝ)) (1/2) (1/4) 1 2 = 205/2304
    simp only [sigma2_t, mu_hat_t, Finset.sum_range_succ, Finset.sum_range_one]
    norm_num [List.take_replicate, List.sum_replicate, List.getD_eq_getElem?_getD,
      List.getElem?_replicate, smul_eq_mul]
  have hs4 : sigma2_tminus1 (List.replicate 6 (1:ℝ)) (1/2) (1/4) 1 4 = 5269/72000 := by
    show sigma2_t (List.replicate 6 (1:ℝ)) (1/2) (1/4) 1 3 = 5269/72000
    simp only [sigma2_t, mu_hat_t, Finset.sum_range_succ, Finset.sum_range_one]
    norm_num [List.take_replicate, List.sum_replicate, List.getD_eq_getElem?_getD,
      List.getElem?_replicate, smul_eq_mul]
  have hs5 : sigma2_tminus1 (List.replicate 6 (1:ℝ)) (1/2) (1/4) 1 5 = 5369/86400 := by
    show sigma2_t (List.replicate 6 (1:ℝ)) (1/2) (1/4) 1 4 = 5369/86400
    simp only [sigma2_t, mu_hat_t, Finset.sum_range_succ, Finset.sum_range_one]
    norm_num [List.take_replicate, List.sum_replicate, List.getD_eq_getElem?_getD,
      List.getElem?_replicate, smul_eq_mul]
  have hdiv1 : ∀ a b : ℝ, 0 < b → b ≤ a → 1 ≤ a / b :=
    fun a b hb hba => (one_le_div hb).mpr hba
  have hbet : ∀ alpha : ℝ, Real.log 4 ≤ Real.log (1/alpha) → ∀ s, s < 6 →
      1 ≤ (lambda_predmix_eb (List.replicate 6 (1:ℝ)) ⊤ alpha none (1/2) (1/4) 1
        1).getD s 0 := by
    intro alpha hL s hs
    have hL2 : 2 * Real.log 2 ≤ Real.log (1/alpha) := by
      rw [← hlog4]; exact hL
    rw [one_div, Real.log_inv] at hL2
    simp only [lambda_predmix_eb]
    rw [getD_map_range _ (by simpa using hs)]
    simp only [mul_one, trunc_min]
    rw [Real.one_le_sqrt]
    interval_cases s
    · rw [hs0]
      refine hdiv1 _ _ ?_ ?_
      · push_cast
        norm_num
        linarith
      · push_cast
        norm_num
        linarith
    · rw [hs1]
      refine hdiv1 _ _ ?_ ?_
      · push_cast
        norm_num
        linarith
      · push_cast
        norm_num
        linarith
    · rw [hs2]
      refine hdiv1 _ _ ?_ ?_
      · push_cast
        norm_num
        linarith
      · push_cast
        norm_num
        linarith
    · rw [hs3]
      refine hdiv1 _ _ ?_ ?_
      · push_cast
        norm_num
        linarith
      · push_cast
        norm_num
        linarith
    · rw [hs4]
      refine hdiv1 _ _ ?_ ?_
      · push_cast
        norm_num
        linarith
      · push_cast
        norm_num
        linarith
    · rw [hs5]
      refine hdiv1 _ _ ?_ ?_
      · push_cast
        norm_num
        linarith
      · push_cast
        norm_num
        linarith
  have hup : upper_trunc (1/2 : ℝ) (1/2) true = 1 := by
    unfold upper_trunc
    rw [if_pos rfl, if_neg (by norm_num)]
    norm_num
  have hlow : lower_trunc (1/2 : ℝ) (1/2) true = 1 := by
    unfold lower_trunc
    rw [if_pos rfl, if_neg (by norm_num)]
    norm_num
  have hlampos : ∀ alpha : ℝ, Real.log 4 ≤ Real.log (1/alpha) → ∀ s, s < 6 →
      lambda_pos (List.replicate 6 (1:ℝ)) (1/2) (default_bets alpha) none (1/2)
        true s = 1 := by
    intro alpha hL s hs
    have hb := hbet alpha hL s hs
    simp only [lambda_pos, mu_t, default_bets, hup, hlow]
    rw [max_eq_right (by linarith), min_eq_left hb]
  have hlamneg : ∀ alpha : ℝ, Real.log 4 ≤ Real.log (1/alpha) → ∀ s, s < 6 →
      lambda_neg (List.replicate 6 (1:ℝ)) (1/2) (default_bets alpha) none (1/2)
        true s = 1 := by
    intro alpha hL s hs
    have hb := hbet alpha hL s hs
    simp only [lambda_neg, mu_t, default_bets, hup, hlow]
    rw [max_eq_right (by linarith), min_eq_left hb]
  have hcpos : ∀ alpha : ℝ, Real.log 4 ≤ Real.log (1/alpha) →
      capital_process_positive (List.replicate 6 (1:ℝ)) (1/2) (default_bets alpha)
        none (1/2) true 5 = (3/2)^6 := by
    intro alpha hL
    unfold capital_process_positive
    have hfac : ∀ s ∈ Finset.range 6,
        (1 + lambda_pos (List.replicate 6 (1:ℝ)) (1/2) (default_bets alpha) none
          (1/2) true s * ((List.replicate 6 (1:ℝ)).getD s 0 -
            mu_t (List.replicate 6 (1:ℝ)) (1/2) none s)) = 3/2 := by
      intro s hsm
      rw [hlampos alpha hL s (Finset.mem_range.mp hsm)]
      simp only [mu_t]
      norm_num [List.getD_eq_getElem?_getD, List.getElem?_replicate,
        Finset.mem_range.mp hsm]
    rw [Finset.prod_congr rfl hfac, Finset.prod_const, Finset.card_range]
  have hcneg : ∀ alpha : ℝ, Real.log 4 ≤ Real.log (1/alpha) →
      capital_process_negative (List.replicate 6 (1:ℝ)) (1/2) (default_bets alpha)
        none (1/2) true 5 = (1/2)^6 := by
    intro alpha hL
    unfold capital_process_negative
    have hfac : ∀ s ∈ Finset.range 6,
        (1 - lambda_neg (List.replicate 6 (1:ℝ)) (1/2) (default_bets alpha) none
          (1/2) true s * ((List.replicate 6 (1:ℝ)).getD s 0 -
            mu_t (List.replicate 6 (1:ℝ)) (1/2) none s)) = 1/2 := by
      intro s hsm
      rw [hlamneg alpha hL s (Finset.mem_range.mp hsm)]
      simp only [mu_t]
      norm_num [List.getD_eq_getElem?_getD, List.getElem?_replicate,
        Finset.mem_range.mp hsm]
    rw [Finset.prod_congr rfl hfac, Finset.prod_const, Finset.card_range]
  have hmart_half : ∀ alpha : ℝ, Real.log 4 ≤ Real.log (1/alpha) →
      (betting_mart (List.replicate 6 (1:ℝ)) (1/2) (default_bets alpha)
        (default_bets alpha) none false (1/2) (1/2) true).getD 5 ⊤
      = ((729/128 : ℝ) : WithTop ℝ) := by
    intro alpha hL
    simp only [betting_mart]
    rw [getD_map_range _ (by simp : 5 < (List.replicate 6 (1:ℝ)).length)]
    rw [if_neg (by simp only [mu_t]; norm_num)]
    have hcomb : capital_combined (List.replicate 6 (1:ℝ)) (1/2)
        (default_bets alpha) (default_bets alpha) none false (1/2) (1/2) true 5
        = 729/128 := by
      simp only [capital_combined]
      rw [if_neg (by norm_num), if_neg (by norm_num), if_neg (by simp)]
      rw [hcpos alpha hL, hcneg alpha hL]
      rw [max_eq_left (by norm_num)]
      norm_num
    rw [hcomb]
  have hmart0 : ∀ alpha : ℝ,
      (betting_mart (List.replicate 6 (1:ℝ)) 0 (default_bets alpha)
        (default_bets alpha) none false (1/2) (1/2) true).getD 5 ⊤ = ⊤ := by
    intro alpha
    simp only [betting_mart]
    rw [getD_map_range _ (by simp : 5 < (List.replicate 6 (1:ℝ)).length)]
    rw [if_pos (Or.inl (by simp only [mu_t]; norm_num))]
  have hmart1 : ∀ alpha : ℝ,
      (betting_mart (List.replicate 6 (1:ℝ)) 1 (default_bets alpha)
        (default_bets alpha) none false (1/2) (1/2) true).getD 5 ⊤ = ⊤ := by
    intro alpha
    simp only [betting_mart]
    rw [getD_map_range _ (by simp : 5 < (List.replicate 6 (1:ℝ)).length)]
    rw [if_pos (Or.inr (by simp only [mu_t]; norm_num))]
  have hmf : ∀ (alpha m : ℝ),
      diversified_betting_mart (List.replicate 6 (1:ℝ)) m [default_bets alpha]
        [default_bets alpha] none none false (1/2) (1/2) true
      = betting_mart (List.replicate 6 (1:ℝ)) m (default_bets alpha)
        (default_bets alpha) none false (1/2) (1/2) true := by
    intro alpha m
    exact diversified_replicate_eq _ m _ _ 1 le_rfl none false (1/2) (1/2) true
  have hval : ∀ alpha : ℝ, Real.log 4 ≤ Real.log (1/alpha) → ∀ i, i ≤ 2 →
      ((fun x2 m => diversified_betting_mart x2 m [default_bets alpha]
          [default_bets alpha] none none false (1/2) (1/2) true)
        (List.replicate 6 (1:ℝ)) (possible_m 2 i)).getD 5 ⊤
      = (if i = 1 then ((729/128 : ℝ) : WithTop ℝ) else ⊤) := by
    intro alpha hL i hi
    simp only []
    rw [hmf alpha (possible_m 2 i)]
    interval_cases i
    · rw [show (possible_m 2 0 : ℝ) = 0 by norm_num [possible_m]]
      rw [hmart0 alpha]
      norm_num
    · rw [show (possible_m 2 1 : ℝ) = 1/2 by norm_num [possible_m]]
      rw [hmart_half alpha hL]
      norm_num
    · rw [show (possible_m 2 2 : ℝ) = 1 by norm_num [possible_m]]
      rw [hmart1 alpha]
      norm_num
  have hmtx : ∀ alpha : ℝ, Real.log 4 ≤ Real.log (1/alpha) → ∀ i, i ≤ 2 →
      confseq_mtx (List.replicate 6 (1:ℝ))
        (fun x2 m => diversified_betting_mart x2 m [default_bets alpha]
          [default_bets alpha] none none false (1/2) (1/2) true) 2 alpha i 5
      = decide ((if i = 1 then ((729/128 : ℝ) : WithTop ℝ) else ⊤)
          ≤ ((1/alpha : ℝ) : WithTop ℝ)) := by
    intro alpha hL i hi
    rw [confseq_mtx, hval alpha hL i hi]
  have hrange3 : List.range 3 = [0, 1, 2] := by
    simp [List.range_succ]
  -- level alpha' = 1/4: all three grid points rejected at t = 6
  have hL4 : Real.log 4 ≤ Real.log (1/(1/4) : ℝ) := by norm_num
  have hA0 : confseq_mtx (List.replicate 6 (1:ℝ))
      (fun x2 m => diversified_betting_mart x2 m [default_bets (1/4)]
        [default_bets (1/4)] none none false (1/2) (1/2) true) 2 (1/4) 0 5
      = false := by
    rw [hmtx (1/4) hL4 0 (by norm_num)]
    rw [decide_eq_false_iff_not]
    norm_num
  have hA1 : confseq_mtx (List.replicate 6 (1:ℝ))
      (fun x2 m => diversified_betting_mart x2 m [default_bets (1/4)]
        [default_bets (1/4)] none none false (1/2) (1/2) true) 2 (1/4) 1 5
      = false := by
    rw [hmtx (1/4) hL4 1 (by norm_num)]
    rw [decide_eq_false_iff_not, if_pos rfl, WithTop.coe_le_coe]
    norm_num
  have hA2 : confseq_mtx (List.replicate 6 (1:ℝ))
      (fun x2 m => diversified_betting_mart x2 m [default_bets (1/4)]
        [default_bets (1/4)] none none false (1/2) (1/2) true) 2 (1/4) 2 5
      = false := by
    rw [hmtx (1/4) hL4 2 (by norm_num)]
    rw [decide_eq_false_iff_not]
    norm_num
  -- level alpha = 1/100: the interior grid point survives at t = 6
  have hL100 : Real.log 4 ≤ Real.log (1/(1/100) : ℝ) := by
    norm_num
    exact Real.log_le_log (by norm_num) (by norm_num)
  have hB0 : confseq_mtx (List.replicate 6 (1:ℝ))
      (fun x2 m => diversified_betting_mart x2 m [default_bets (1/100)]
        [default_bets (1/100)] none none false (1/2) (1/2) true) 2 (1/100) 0 5
      = false := by
    rw [hmtx (1/100) hL100 0 (by norm_num)]
    rw [decide_eq_false_iff_not]
    norm_num
  have hB1 : confseq_mtx (List.replicate 6 (1:ℝ))
      (fun x2 m => diversified_betting_mart x2 m [default_bets (1/100)]
        [default_bets (1/100)] none none false (1/2) (1/2) true) 2 (1/100) 1 5
      = true := by
    rw [hmtx (1/100) hL100 1 (by norm_num)]
    rw [decide_eq_true_eq, if_pos rfl, WithTop.coe_le_coe]
    norm_num
  have hB2 : confseq_mtx (List.replicate 6 (1:ℝ))
      (fun x2 m => diversified_betting_mart x2 m [default_bets (1/100)]
        [default_bets (1/100)] none none false (1/2) (1/2) true) 2 (1/100) 2 5
      = false := by
    rw [hmtx (1/100) hL100 2 (by norm_num)]
    rw [decide_eq_false_iff_not]
    norm_num
  have hwhereA : where_in_cs (List.replicate 6 (1:ℝ))
      (fun x2 m => diversified_betting_mart x2 m [default_bets (1/4)]
        [default_bets (1/4)] none none false (1/2) (1/2) true) 2 (1/4) 5 = [] := by
    rw [where_in_cs, hrange3]
    rw [List.filter_cons, List.filter_cons, List.filter_cons, hA0, hA1, hA2]
    rfl
  have hwhereB : where_in_cs (List.replicate 6 (1:ℝ))
      (fun x2 m => diversified_betting_mart x2 m [default_bets (1/100)]
        [default_bets (1/100)] none none false (1/2) (1/2) true) 2 (1/100) 5
      = [1] := by
    rw [where_in_cs, hrange3]
    rw [List.filter_cons, List.filter_cons, List.filter_cons, hB0, hB1, hB2]
    rfl
  have h5len : (5 : ℕ) < (List.replicate 6 (1:ℝ)).length := by simp
  refine ⟨?_, ?_, ?_, ?_⟩
  · show (cs_from_martingale (List.replicate 6 (1:ℝ)) _ 2 (1/100) none false).1.getD
      5 (some 37) = some 0
    unfold cs_from_martingale
    rw [if_neg (by simp)]
    simp only [l_intersected, l_widened]
    rw [getD_map_range _ h5len]
    rw [l_pre, hwhereB]
    norm_num [nmax, possible_m]
  · show (cs_from_martingale (List.replicate 6 (1:ℝ)) _ 2 (1/100) none false).2.getD
      5 (some 37) = some 1
    unfold cs_from_martingale
    rw [if_neg (by simp)]
    simp only [u_intersected, u_widened]
    rw [getD_map_range _ h5len]
    rw [u_pre, hwhereB]
    norm_num [nmin, possible_m]
  · show (cs_from_martingale (List.replicate 6 (1:ℝ)) _ 2 (1/4) none false).1.getD
      5 (some 37) = none
    unfold cs_from_martingale
    rw [if_neg (by simp)]
    simp only [l_intersected, l_widened]
    rw [getD_map_range _ h5len]
    rw [l_pre, hwhereA]
    rfl
  · show (cs_from_martingale (List.replicate 6 (1:ℝ)) _ 2 (1/4) none false).2.getD
      5 (some 37) = none
    unfold cs_from_martingale
    rw [if_neg (by simp)]
    simp only [u_intersected, u_widened]
    rw [getD_map_range _ h5len]
    rw [u_pre, hwhereA]
    rfl

end Confseq
